import Mathlib

/-!
Verification of the lightflow dag execution core (src/lightflow/models/dag.py).

Task nodes are identified by natural numbers (the Python code keys graphs and
dicts on task object identity).  The networkx directed graph is embedded as
insertion-ordered node and edge lists; the slot map (a defaultdict of dicts)
as an insertion-ordered association list.  The distributed queue, the signal
collaborator and the configuration are embedded as an explicit environment:
`fin t n` tells whether the celery job of node `n` reports finished at polling
iteration `t`, `limitOf n` is the successor limit carried by node `n`'s result,
`sig k` is the value returned by the k-th call to `signal.is_stopped`, and
`dataOf n` is the opaque output payload of node `n`.

Python exceptions escaping `Dag.run`'s loop (the KeyError raised by
`self._slots[task][pre_task]` and the AttributeError raised by reading
`.result.data` of a missing or pending celery result) are embedded as `none`
propagating through the step functions.
-/

namespace Lightflow

/-- Directed graph with insertion-ordered vertex and edge lists, embedding the
networkx DiGraph used by the dag. -/
structure Graph where
  nodes : List Nat
  edges : List (Nat × Nat)
  deriving Repr, DecidableEq

def Graph.empty : Graph := ⟨[], []⟩

/-- networkx add_node: inserts the vertex if it is not present yet. -/
def Graph.addNode (g : Graph) (n : Nat) : Graph :=
  if n ∈ g.nodes then g else { g with nodes := g.nodes ++ [n] }

/-- networkx add_edge: auto-creates both endpoints, then inserts the edge if
it is not present yet. -/
def Graph.addEdge (g : Graph) (a b : Nat) : Graph :=
  let g := (g.addNode a).addNode b
  if (a, b) ∈ g.edges then g else { g with edges := g.edges ++ [(a, b)] }

/-- networkx predecessors: sources of the edges into `n`. -/
def Graph.preds (g : Graph) (n : Nat) : List Nat :=
  (g.edges.filter (fun e => e.2 == n)).map (fun e => e.1)

/-- networkx successors: targets of the edges out of `n`. -/
def Graph.succs (g : Graph) (n : Nat) : List Nat :=
  (g.edges.filter (fun e => e.1 == n)).map (fun e => e.2)

/-- Slot map: `self._slots` is a defaultdict mapping a successor task to a
dict mapping each labelled predecessor to its slot label. -/
abbrev SlotMap := List (Nat × List (Nat × String))

/-- Lookup in an inner dict (keys are unique, so first match is the match). -/
def innerLookup : List (Nat × String) → Nat → Option String
  | [], _ => none
  | (q, v) :: t, pre => if q == pre then some v else innerLookup t pre

/-- Lookup of `self._slots[succ][pre]`, as an Option (a missing key raises
KeyError in Python). -/
def slotLookup (m : SlotMap) (succ pre : Nat) : Option String :=
  match m with
  | [] => none
  | (k, inner) :: rest =>
    if k == succ then innerLookup inner pre else slotLookup rest succ pre

/-- Membership test `task in self._slots`. -/
def slotHasKey (m : SlotMap) (succ : Nat) : Bool :=
  m.any (fun p => p.1 == succ)

/-- Assignment on the inner dict: overwrite the value at the key if present,
append otherwise. -/
def innerInsert (pre : Nat) (s : String) : List (Nat × String) → List (Nat × String)
  | [] => [(pre, s)]
  | (q, v) :: t => if q == pre then (q, s) :: t else (q, v) :: innerInsert pre s t

/-- Assignment `self._slots[succ][pre] = s` on the defaultdict of dicts. -/
def slotInsert (m : SlotMap) (succ pre : Nat) (s : String) : SlotMap :=
  match m with
  | [] => [(succ, [(pre, s)])]
  | (k, inner) :: rest =>
    if k == succ then
      (k, innerInsert pre s inner) :: rest
    else
      (k, inner) :: slotInsert rest succ pre s

/-- One child specification in a schema: the value attached to a parent key.
Python allows None, a single task, a list of tasks, or a dict from task to
slot label (where the label may be None or a string). -/
inductive ChildSpec where
  | noneSpec : ChildSpec
  | single : Nat → ChildSpec
  | listSpec : List Nat → ChildSpec
  | dictSpec : List (Nat × Option String) → ChildSpec
  deriving Repr, DecidableEq

/-- A schema is the insertion-ordered dict from parent task to children. -/
abbrev Schema := List (Nat × ChildSpec)

/-- Edge insertion for a plain child list: `self._graph.add_edge(parent,
child)` for every child; the slot lookup `children[child]` raises TypeError
on a list, which define catches and ignores, so no slot is registered. -/
def addEdgesFrom (parent : Nat) (g : Graph) (cs : List Nat) : Graph :=
  cs.foldl (fun gg c => gg.addEdge parent c) g

/-- Processing of one child of a dict children value: the edge is added, and
the slot label is registered when it is neither None nor the empty string. -/
def dictStep (parent : Nat) (gs : Graph × SlotMap) (cd : Nat × Option String) :
    Graph × SlotMap :=
  let g' := gs.1.addEdge parent cd.1
  match cd.2 with
  | none => (g', gs.2)
  | some s => if s == "" then (g', gs.2) else (g', slotInsert gs.2 cd.1 parent s)

/-- Processing of one schema entry by Dag.define: a None or empty children
value adds the parent as an isolated vertex; a list adds plain edges without
slots; a dict adds edges and registers each label that is neither None nor
empty. -/
def defineStep (acc : Graph × SlotMap) (entry : Nat × ChildSpec) : Graph × SlotMap :=
  let (g, slots) := acc
  let (parent, children) := entry
  match children with
  | ChildSpec.noneSpec => (g.addNode parent, slots)
  | ChildSpec.single c => ((g.addEdge parent c), slots)
  | ChildSpec.listSpec cs =>
    if cs.isEmpty then (g.addNode parent, slots)
    else (addEdgesFrom parent g cs, slots)
  | ChildSpec.dictSpec cs =>
    if cs.isEmpty then (g.addNode parent, slots)
    else cs.foldl (dictStep parent) (g, slots)

/-- A dag instance: name, autostart flag, graph, slot map, clone counter and
owning workflow name, mirroring Dag.__init__. -/
structure DagS where
  name : String
  autostart : Bool
  graph : Graph
  slots : SlotMap
  copyCounter : Nat
  workflowName : Option String
  deriving Repr, DecidableEq

/-- Dag.__init__. -/
def DagS.init (name : String) (autostart : Bool) : DagS :=
  { name := name, autostart := autostart, graph := Graph.empty, slots := [],
    copyCounter := 0, workflowName := none }

/-- Dag.define: clears the graph and rebuilds it from the schema; the slot
map is carried over from the previous state (define never clears it). -/
def DagS.define (d : DagS) (schema : Schema) : DagS :=
  let (g, slots) := schema.foldl defineStep (Graph.empty, d.slots)
  { d with graph := g, slots := slots }

/-- Dag.__deepcopy__: increments the template's copy counter, creates a fresh
dag named `name:counter` (whose own counter restarts at zero, from __init__),
and copies graph and slot map into it.  Returns the mutated template together
with the clone. -/
def deepcopyDag (d : DagS) : DagS × DagS :=
  let d' := { d with copyCounter := d.copyCounter + 1 }
  let clone := { DagS.init (d.name ++ ":" ++ toString d'.copyCounter) d.autostart with
                 graph := d.graph, slots := d.slots }
  (d', clone)

/-!  Acyclicity.  nx.is_directed_acyclic_graph is embedded by iterated
peeling: a round keeps exactly the vertices that still have a surviving
predecessor; the graph is acyclic iff `|nodes|` rounds empty the vertex set. -/

def hasAlivePred (g : Graph) (alive : List Nat) (n : Nat) : Bool :=
  alive.any (fun p => (p, n) ∈ g.edges)

def peel (g : Graph) (alive : List Nat) : List Nat :=
  alive.filter (hasAlivePred g alive)

def peelIter (g : Graph) : Nat → List Nat
  | 0 => g.nodes
  | k + 1 => peel g (peelIter g k)

def isAcyclic (g : Graph) : Bool :=
  (peelIter g g.nodes.length).isEmpty

/-- One entry of a successor limit list: the Python code accepts both task
objects and plain name strings (`name.name if isinstance(name, BaseTask) else
name`). -/
inductive LimitItem where
  | taskRef : Nat → LimitItem
  | nameRef : String → LimitItem
  deriving Repr, DecidableEq

/-- Per-node attributes of the task objects: display name and the
propagate_skip flag. -/
structure TaskAttrs where
  nameOf : Nat → String
  propagateSkip : Nat → Bool

/-- External collaborators of the run loop (celery queue and signal). -/
structure Env where
  fin : Nat → Nat → Bool
  limitOf : Nat → Option (List LimitItem)
  sig : Nat → Bool
  dataOf : Nat → Nat

/-- Configuration: the polling time and whether the celery app's
result_expires setting is zero. -/
structure Config where
  dagPollingTime : Nat
  resultExpiresZero : Bool
  deriving Repr, DecidableEq

/-- Everything Dag.run reads but never mutates. -/
structure Ctx where
  g : Graph
  slots : SlotMap
  attrs : TaskAttrs
  env : Env
  cfg : Config

/-- Mutable state of one Dag.run invocation: the active task list, the
cleanup list, the ordered log of submit calls (a node has a celery result,
i.e. has_result, iff it occurs here), the nodes whose skip flag is set, the
ordered log of forget() calls, the latched stop flag, the number of
signal.is_stopped samples taken, and the polling iteration counter. -/
structure RunState where
  tasks : List Nat
  cleanup : List Nat
  dispatched : List Nat
  skipped : List Nat
  forgotten : List Nat
  stopped : Bool
  samples : Nat
  time : Nat
  deriving Repr, DecidableEq

/-- has_result: the task has been assigned a celery result by a submit. -/
def hasResult (st : RunState) (n : Nat) : Bool := n ∈ st.dispatched

/-- is_finished of a task object: it has a celery result and the job reports
finished. -/
def isFinishedB (C : Ctx) (st : RunState) (n : Nat) : Bool :=
  hasResult st n && C.env.fin st.time n

/-- skip(): sets the skip flag (idempotent). -/
def skipNode (n : Nat) (st : RunState) : RunState :=
  if n ∈ st.skipped then st else { st with skipped := st.skipped ++ [n] }

/-- Normalisation of one limit entry to a name string. -/
def limitItemName (A : TaskAttrs) : LimitItem → String
  | LimitItem.taskRef i => A.nameOf i
  | LimitItem.nameRef s => s

/-- One dataset of a MultiTaskData payload: dataset name (the producing
task's name), its payload, and the optional alias list from the slot label. -/
structure Dataset where
  dsName : String
  payload : Nat
  aliases : Option (List String)
  deriving Repr, DecidableEq

/-- Aggregation of the predecessors' outputs (dag.py lines 180-189).  For
each predecessor: if the consuming task is a key of the slot map, Python
evaluates `self._slots[task][pre_task]`, which raises KeyError when this
particular predecessor carries no label — embedded as `none`; otherwise the
alias list is absent.  Reading `pre_task.celery_result.result.data` raises
AttributeError when the predecessor has no celery result or the job is not
done — the `readData` argument returns `none` there. -/
def buildInput (slots : SlotMap) (A : TaskAttrs) (readData : Nat → Option Nat)
    (task : Nat) (preTasks : List Nat) : Option (List Dataset) :=
  match preTasks with
  | [] => some []
  | pre :: rest =>
    let aliases : Option (Option (List String)) :=
      if slotHasKey slots task then
        match slotLookup slots task pre with
        | some s => some (some [s])
        | none => none
      else
        some none
    match aliases with
    | none => none
    | some al =>
      match readData pre with
      | none => none
      | some d =>
        match buildInput slots A readData task rest with
        | none => none
        | some tail => some ({ dsName := A.nameOf pre, payload := d, aliases := al } :: tail)

/-- Payload read of a dispatched predecessor inside the run loop. -/
def readResultData (C : Ctx) (st : RunState) (pre : Nat) : Option Nat :=
  if hasResult st pre && C.env.fin st.time pre then some (C.env.dataOf pre) else none

/-- Submit (celery send_task): appends the node to the dispatch log, which is
the moment its celery result is assigned. -/
def dispatchNode (n : Nat) (st : RunState) : RunState :=
  { st with dispatched := st.dispatched ++ [n] }

/-- Limit check on one successor of a finished task (dag.py lines 206-213):
when the finished task's result carries a limit list and the successor's name
is not among the normalised names, the successor is skipped. -/
def limitApply (C : Ctx) (task next : Nat) (st : RunState) : RunState :=
  match C.env.limitOf task with
  | none => st
  | some L =>
    if C.attrs.nameOf next ∈ L.map (limitItemName C.attrs) then st
    else skipNode next st

/-- Readiness check of a successor (dag.py line 217): all its predecessors
are finished or skipped. -/
def readyCheck (C : Ctx) (st : RunState) (next : Nat) : Bool :=
  (C.g.preds next).all (fun pt => isFinishedB C st pt || pt ∈ st.skipped)

/-- Skip-propagation check (dag.py line 221): all predecessors are skipped
with propagate_skip set. -/
def allSkippedProp (C : Ctx) (st : RunState) (next : Nat) : Bool :=
  (C.g.preds next).all (fun pt => pt ∈ st.skipped && C.attrs.propagateSkip pt)

/-- Processing of one direct successor of a finished task (dag.py lines
204-228).  First the limit check; then, if the successor is neither in the
task list nor dispatched: when all its predecessors are finished-or-skipped
it is skipped if they all are skipped with propagate_skip, and appended to
the task list unless the run is stopped; otherwise the
all_successors_queued flag drops to false. -/
def succStep (C : Ctx) (task : Nat) (acc : RunState × Bool) (next : Nat) :
    RunState × Bool :=
  let st := limitApply C task next acc.1
  if next ∈ st.tasks || hasResult st next then
    (st, acc.2)
  else
    if readyCheck C st next then
      let st := if allSkippedProp C st next then skipNode next st else st
      let st := if st.stopped then st else { st with tasks := st.tasks ++ [next] }
      (st, acc.2)
    else
      (st, false)

/-- The loop over the successors of a finished task, threading the
all_successors_queued flag. -/
def succFold (C : Ctx) (task : Nat) (st : RunState) : RunState × Bool :=
  (C.g.succs task).foldl (succStep C task) (st, true)

/-- Processing of one entry of the active task list (dag.py lines 162-234).
Sampling of signal.is_stopped happens first, unless the stop flag is already
latched.  An undispatched task is submitted (with the initial data when it
has no predecessors, with the aggregated input otherwise) unless stopped; the
aggregation is computed before the stop check and its Python exceptions
propagate as `none`.  A dispatched task that reports finished processes its
successors and, when they are all accounted for, moves from the task list to
the cleanup list. -/
def sampleSignal (C : Ctx) (st : RunState) : RunState :=
  if st.stopped then st
  else { st with stopped := C.env.sig st.samples, samples := st.samples + 1 }

def taskStep (C : Ctx) (task : Nat) (st : RunState) : Option RunState :=
  let st := sampleSignal C st
  if hasResult st task then
    if C.env.fin st.time task then
      let (st, allQ) := succFold C task st
      if allQ then
        some { st with cleanup := st.cleanup ++ [task], tasks := st.tasks.erase task }
      else
        some st
    else
      some st
  else
    let pre := C.g.preds task
    if pre.isEmpty then
      if st.stopped then some st else some (dispatchNode task st)
    else
      match buildInput C.slots C.attrs (readResultData C st) task pre with
      | none => none
      | some _ => if st.stopped then some st else some (dispatchNode task st)

/-- The `for task in reversed(tasks)` loop.  The reverse iterator is created
once; removals inside the body only ever remove the element being processed
and appends land beyond the iterator's start, so the iteration visits exactly
the reversed snapshot of the list while the state (including the live task
list) is threaded through. -/
def advanceGo (C : Ctx) : List Nat → RunState → Option RunState
  | [], st => some st
  | task :: rest, st =>
    match taskStep C task st with
    | none => none
    | some st' => advanceGo C rest st'

def advancePass (C : Ctx) (st : RunState) : Option RunState :=
  advanceGo C st.tasks.reverse st

/-- Condition of the cleanup pass: all successors of the task have a
dispatched result. -/
def cleanupQualifies (C : Ctx) (st : RunState) (task : Nat) : Bool :=
  (C.g.succs task).all (fun s => hasResult st s)

/-- The `for task in cleanup` loop (dag.py lines 155-159).  Python iterates
the live list by index; `cleanup.remove(task)` while iterating makes the
iterator move past the element that slid into the removed slot.  forget() is
called only under the immediate-expiry retention policy, while the removal
from the cleanup list happens for every qualifying task.  The loop runs
while the index is below the live length; the index grows by one per
iteration and the list never grows, so the initial length (passed as the
first argument by cleanupPass) bounds the iterations exactly. -/
def cleanupGo (C : Ctx) : Nat → Nat → RunState → RunState
  | 0, _, st => st
  | bound + 1, i, st =>
    if h : i < st.cleanup.length then
      let task := st.cleanup.get ⟨i, h⟩
      if cleanupQualifies C st task then
        if C.cfg.resultExpiresZero then
          cleanupGo C bound (i + 1)
            { st with
              forgotten := st.forgotten ++ [task],
              cleanup := st.cleanup.erase task }
        else
          cleanupGo C bound (i + 1) { st with cleanup := st.cleanup.erase task }
      else
        cleanupGo C bound (i + 1) st
    else
      st

def cleanupPass (C : Ctx) (st : RunState) : RunState :=
  cleanupGo C st.cleanup.length 0 st

/-- One iteration of the `while tasks or cleanup` loop: the polling sleep
(embedded as the tick of the iteration counter), the cleanup pass and the
advance pass. -/
def loopBody (C : Ctx) (st : RunState) : Option RunState :=
  let st := { st with time := st.time + 1 }
  advancePass C (cleanupPass C st)

/-- The while loop, fuel-bounded: stops when both lists are empty, otherwise
runs one body and recurses.  `none` is a Python exception escaping the loop. -/
def runLoop (C : Ctx) : Nat → RunState → Option RunState
  | 0, st => some st
  | fuel + 1, st =>
    if st.tasks.isEmpty && st.cleanup.isEmpty then some st
    else
      match loopBody C st with
      | none => none
      | some st' => runLoop C fuel st'

/-- Setup of the run (dag.py lines 139-149): iterate the topological order,
bind every node to the dag (name assignment, not tracked), and seed the task
list with the nodes that have no predecessors; both auxiliary lists start
empty, the stop flag unlatched. -/
def initState (C : Ctx) : RunState :=
  { tasks := C.g.nodes.filter (fun n => (C.g.preds n).isEmpty),
    cleanup := [], dispatched := [], skipped := [], forgotten := [],
    stopped := false, samples := 0, time := 0 }

/-- Errors Dag.run can raise before the loop, plus the embedded marker for a
Python exception escaping the loop itself. -/
inductive DagError where
  | directedAcyclicGraphInvalid : DagError
  | configNotDefinedError : DagError
  | runtimeCrash : DagError
  deriving Repr, DecidableEq

/-- Dag.run (dag.py lines 113-234): the acyclicity check comes first, then
the configuration check, and only then is anything dispatched. -/
def runDag (d : DagS) (A : TaskAttrs) (config : Option Config) (env : Env)
    (fuel : Nat) : Except DagError RunState :=
  if !isAcyclic d.graph then
    Except.error DagError.directedAcyclicGraphInvalid
  else
    match config with
    | none => Except.error DagError.configNotDefinedError
    | some cfg =>
      let C : Ctx := { g := d.graph, slots := d.slots, attrs := A, env := env, cfg := cfg }
      match runLoop C fuel (initState C) with
      | none => Except.error DagError.runtimeCrash
      | some st => Except.ok st

/-- Elements at even positions of a list (0-based). -/
def evenIdx {α : Type} : List α → List α
  | [] => []
  | [a] => [a]
  | a :: _ :: t => a :: evenIdx t

/-- Elements at odd positions of a list (0-based). -/
def oddIdx {α : Type} : List α → List α
  | [] => []
  | [_] => []
  | _ :: b :: t => b :: oddIdx t

/-- Whether a dict entry list registers a non-empty slot label for a child. -/
def dictRegisters (cs : List (Nat × Option String)) (succ : Nat) : Bool :=
  cs.any (fun cd =>
    cd.1 == succ &&
      match cd.2 with
      | some s => s != ""
      | none => false)

/-- Whether a schema registers a non-empty slot label for the edge
`pre → succ` (i.e. whether define would write `self._slots[succ][pre]`). -/
def registersLabel (schema : Schema) (pre succ : Nat) : Bool :=
  schema.any (fun e =>
    e.1 == pre &&
      match e.2 with
      | ChildSpec.dictSpec cs => dictRegisters cs succ
      | _ => false)

/-- Well-formedness of the graph embedding: edge endpoints are vertices and
the vertex list is duplicate-free (networkx guarantees both). -/
def GraphWF (g : Graph) : Prop :=
  (∀ e ∈ g.edges, e.1 ∈ g.nodes ∧ e.2 ∈ g.nodes) ∧ g.nodes.Nodup

/-- Readiness of every dispatched node: all its predecessors are finished or
skipped.  This is the safety property behind the append-before-dispatch
protocol of the advance pass. -/
def InvD (C : Ctx) (st : RunState) : Prop :=
  ∀ n ∈ st.dispatched, ∀ p ∈ C.g.preds n,
    (p ∈ st.dispatched ∧ C.env.fin st.time p = true) ∨ p ∈ st.skipped

/-- Readiness of every entry of the active task list: it is either already
dispatched, a source node, or all its predecessors are finished or skipped
(the condition checked when it got appended). -/
def InvR (C : Ctx) (st : RunState) : Prop :=
  ∀ n ∈ st.tasks, n ∈ st.dispatched ∨ C.g.preds n = [] ∨
    ∀ p ∈ C.g.preds n,
      (p ∈ st.dispatched ∧ C.env.fin st.time p = true) ∨ p ∈ st.skipped

/-- Progress bookkeeping: every vertex is on the active list, or dispatched,
or has a predecessor that is not yet fully discharged (still active, still in
cleanup, or not yet dispatched).  At termination this forces every vertex of
an acyclic graph to have been dispatched. -/
def InvK (C : Ctx) (st : RunState) : Prop :=
  ∀ n ∈ C.g.nodes, n ∈ st.tasks ∨ n ∈ st.dispatched ∨
    ∃ p, (p, n) ∈ C.g.edges ∧ (p ∈ st.tasks ∨ p ∈ st.cleanup ∨ p ∉ st.dispatched)

/-- The run-loop invariant bundle. -/
def Inv (C : Ctx) (st : RunState) : Prop :=
  st.dispatched.Nodup ∧ st.tasks.Nodup ∧ InvD C st ∧ InvR C st ∧ InvK C st

/-!  Concrete instances shared by the evaluation theorems below. -/

/-- Task attributes used in the concrete scenarios: node `n` is named after
its number and propagate_skip is left at its default of true. -/
def attrsN : TaskAttrs := ⟨fun n => toString n, fun _ => true⟩

/-- Config with tight-loop polling and immediate result expiry. -/
def cfg0 : Config := ⟨0, true⟩

/-- Environment where every dispatched job reports finished, results carry no
limit, and the stop signal stays false. -/
def envPlain : Env :=
  { fin := fun _ _ => true, limitOf := fun _ => none, sig := fun _ => false,
    dataOf := fun _ => 0 }

/-- Environment like envPlain except that node 0's result carries the empty
limit list, which skips every direct successor. -/
def envLim0 : Env := { envPlain with limitOf := fun n => if n == 0 then some [] else none }

/-- Chain dag 0 → 1 → 2. -/
def dagChain3 : DagS :=
  (DagS.init "d" true).define [(0, ChildSpec.single 1), (1, ChildSpec.single 2)]

/-- Dag with the two isolated vertices 0 and 1. -/
def dagTwoRoots : DagS :=
  (DagS.init "d" true).define [(0, ChildSpec.noneSpec), (1, ChildSpec.noneSpec)]

/-- Cyclic graph 0 → 1 → 0. -/
def dagCyc : DagS :=
  (DagS.init "d" true).define [(0, ChildSpec.single 1), (1, ChildSpec.single 0)]

/-- Join dag 0 → 2 ← 1. -/
def dagJoin : DagS :=
  (DagS.init "d" true).define [(0, ChildSpec.single 2), (1, ChildSpec.single 2)]

/-- Context for the join dag under envPlain / cfg0. -/
def ctxJoin : Ctx :=
  { g := dagJoin.graph, slots := dagJoin.slots, attrs := attrsN, env := envPlain, cfg := cfg0 }

/-- Context for the chain dag under the limit environment. -/
def ctxChainLim : Ctx :=
  { g := dagChain3.graph, slots := dagChain3.slots, attrs := attrsN, env := envLim0,
    cfg := cfg0 }

/-- Dag whose first define call registers slot label x for the edge 0 → 1. -/
def dagSlotX : DagS := (DagS.init "d" true).define [(0, ChildSpec.dictSpec [(1, some "x")])]

/-- The same dag redefined with a schema that registers label y for 0 → 1. -/
def dagSlotXY : DagS := dagSlotX.define [(0, ChildSpec.dictSpec [(1, some "y")])]

/-- Mid-run state of the join dag where every node has been dispatched and
both sources sit in the cleanup list, each qualifying for release. -/
def stJoinCleanup : RunState :=
  { tasks := [], cleanup := [0, 1], dispatched := [0, 1, 2], skipped := [],
    forgotten := [], stopped := false, samples := 0, time := 3 }

/-- A state whose stop flag has been latched. -/
def stStoppedEx : RunState :=
  { tasks := [2], cleanup := [0], dispatched := [0, 1], skipped := [],
    forgotten := [], stopped := true, samples := 3, time := 2 }

/-- State of the chain run right when node 0 has been dispatched and its job
reports finished. -/
def stC6 : RunState :=
  { tasks := [0], cleanup := [], dispatched := [0], skipped := [],
    forgotten := [], stopped := false, samples := 1, time := 2 }

/-- State of the chain run where node 1 is finished and skipped, while node 2
has not been touched yet. -/
def stC3a : RunState :=
  { tasks := [1], cleanup := [], dispatched := [0, 1], skipped := [1],
    forgotten := [], stopped := false, samples := 3, time := 4 }

/-- State of the chain run where the skipped node 2 sits in the task list
waiting for its dispatch. -/
def stC3b : RunState :=
  { tasks := [2], cleanup := [1], dispatched := [0, 1], skipped := [1, 2],
    forgotten := [0], stopped := false, samples := 4, time := 5 }

/-!  Basic lemmas about the graph embedding. -/

theorem mem_preds_iff (g : Graph) (n p : Nat) : p ∈ g.preds n ↔ (p, n) ∈ g.edges := by
  simp only [Graph.preds, List.mem_map, List.mem_filter, beq_iff_eq]
  constructor
  · rintro ⟨e, ⟨he, h2⟩, h1⟩
    have : e = (p, n) := by
      cases e; simp_all
    simpa [this] using he
  · intro h
    exact ⟨(p, n), ⟨h, rfl⟩, rfl⟩

theorem mem_succs_iff (g : Graph) (n s : Nat) : s ∈ g.succs n ↔ (n, s) ∈ g.edges := by
  simp only [Graph.succs, List.mem_map, List.mem_filter, beq_iff_eq]
  constructor
  · rintro ⟨e, ⟨he, h1⟩, h2⟩
    have : e = (n, s) := by
      cases e; simp_all
    simpa [this] using he
  · intro h
    exact ⟨(n, s), ⟨h, rfl⟩, rfl⟩

/-!  Components untouched by the cleanup pass: it only erases cleanup entries
and appends to the forget log. -/

theorem cleanupGo_fields (C : Ctx) (bound : Nat) : ∀ i st,
    (cleanupGo C bound i st).tasks = st.tasks ∧
    (cleanupGo C bound i st).dispatched = st.dispatched ∧
    (cleanupGo C bound i st).skipped = st.skipped ∧
    (cleanupGo C bound i st).stopped = st.stopped ∧
    (cleanupGo C bound i st).samples = st.samples ∧
    (cleanupGo C bound i st).time = st.time := by
  induction bound with
  | zero =>
    intro i st
    simp [cleanupGo]
  | succ bound ih =>
    intro i st
    rw [cleanupGo]
    by_cases h : i < st.cleanup.length
    · simp only [h, dif_pos]
      by_cases hq : cleanupQualifies C st (st.cleanup.get ⟨i, h⟩)
      · by_cases hexp : C.cfg.resultExpiresZero
        · simp only [hq, if_true, hexp]
          have h2 := ih (i + 1)
            ⟨st.tasks, st.cleanup.erase (st.cleanup.get ⟨i, h⟩), st.dispatched, st.skipped,
             st.forgotten ++ [st.cleanup.get ⟨i, h⟩], st.stopped, st.samples, st.time⟩
          simpa using h2
        · simp only [hq, if_true, hexp, Bool.false_eq_true, if_false]
          have h2 := ih (i + 1)
            ⟨st.tasks, st.cleanup.erase (st.cleanup.get ⟨i, h⟩), st.dispatched, st.skipped,
             st.forgotten, st.stopped, st.samples, st.time⟩
          simpa using h2
      · simp only [hq, Bool.false_eq_true, if_false]
        exact ih (i + 1) st
    · simp [h]

theorem cleanupPass_fields (C : Ctx) (st : RunState) :
    (cleanupPass C st).tasks = st.tasks ∧
    (cleanupPass C st).dispatched = st.dispatched ∧
    (cleanupPass C st).skipped = st.skipped ∧
    (cleanupPass C st).stopped = st.stopped ∧
    (cleanupPass C st).samples = st.samples ∧
    (cleanupPass C st).time = st.time :=
  cleanupGo_fields C st.cleanup.length 0 st

/-- C7: a cyclic graph makes run raise DirectedAcyclicGraphInvalid before any
dispatch call and before any node state is mutated (the error is returned
before the loop state even exists), and an absent configuration makes run
raise ConfigNotDefinedError, likewise before any dispatch. -/
theorem C7_preflight_checks :
    (∀ (d : DagS) (A : TaskAttrs) (config : Option Config) (env : Env) (fuel : Nat),
      isAcyclic d.graph = false →
      runDag d A config env fuel = Except.error DagError.directedAcyclicGraphInvalid) ∧
    (∀ (d : DagS) (A : TaskAttrs) (env : Env) (fuel : Nat),
      isAcyclic d.graph = true →
      runDag d A none env fuel = Except.error DagError.configNotDefinedError) := by
  constructor
  · intro d A config env fuel h
    simp [runDag, h]
  · intro d A env fuel h
    simp [runDag, h]

/-- Witness for C7 at the concrete cyclic dag 0 → 1 → 0 and at the acyclic
chain dag run without a configuration. -/
theorem C7_preflight_checks_witness :
    runDag dagCyc attrsN (some cfg0) envPlain 10 =
      Except.error DagError.directedAcyclicGraphInvalid ∧
    runDag dagChain3 attrsN none envPlain 10 =
      Except.error DagError.configNotDefinedError :=
  ⟨C7_preflight_checks.1 dagCyc attrsN (some cfg0) envPlain 10 (by decide),
   C7_preflight_checks.2 dagChain3 attrsN envPlain 10 (by decide)⟩

/-- C9: when the graph is cyclic and the configuration is absent at the same
time, run raises the graph error, not the configuration error, because the
acyclicity check runs first. -/
theorem C9_cycle_beats_missing_config (d : DagS) (A : TaskAttrs) (env : Env) (fuel : Nat)
    (h : isAcyclic d.graph = false) :
    runDag d A none env fuel = Except.error DagError.directedAcyclicGraphInvalid := by
  simp [runDag, h]

/-- Witness for C9 at the concrete cyclic dag with no configuration. -/
theorem C9_cycle_beats_missing_config_witness :
    runDag dagCyc attrsN none envPlain 10 =
      Except.error DagError.directedAcyclicGraphInvalid :=
  C9_cycle_beats_missing_config dagCyc attrsN envPlain 10 (by decide)

/-- Counterexample to C8: the clone counter is not carried forward into the
clone.  Cloning a fresh dag leaves the incremented counter (1) on the
template while the clone restarts at 0; distinctness of chained clone names
comes from name extension, not from the counter. -/
theorem C8_counterexample :
    (deepcopyDag (DagS.init "d" true)).1.copyCounter = 1 ∧
    (deepcopyDag (DagS.init "d" true)).2.copyCounter = 0 ∧
    (deepcopyDag (DagS.init "d" true)).2.copyCounter ≠
      (deepcopyDag (DagS.init "d" true)).1.copyCounter ∧
    (deepcopyDag (deepcopyDag (DagS.init "d" true)).2).2.name = "d:1:1" ∧
    (deepcopyDag (DagS.init "d" true)).2.name = "d:1" :=
  ⟨rfl, rfl, by decide, by decide, by decide⟩

/-- C8 (amended): cloning yields an independent instance named
`templateName:counter+1`; the incremented counter persists on the template
while the clone's own counter restarts at zero; the clone carries the
template's graph and slot map; and every clone's name strictly extends its
source's name, so repeatedly cloning a clone of a clone still yields distinct
names. -/
theorem C8_clone_name_and_counter (d : DagS) :
    (deepcopyDag d).2.name = d.name ++ ":" ++ toString (d.copyCounter + 1) ∧
    (deepcopyDag d).1.copyCounter = d.copyCounter + 1 ∧
    (deepcopyDag d).2.copyCounter = 0 ∧
    (deepcopyDag d).2.graph = d.graph ∧
    (deepcopyDag d).2.slots = d.slots ∧
    d.name.length < (deepcopyDag d).2.name.length ∧
    (deepcopyDag d).2.name ≠ d.name := by
  have hcolon : (":" : String).length = 1 := rfl
  have hlt : d.name.length < (deepcopyDag d).2.name.length := by
    show d.name.length < (d.name ++ ":" ++ toString (d.copyCounter + 1)).length
    rw [String.length_append, String.length_append, hcolon]
    omega
  refine ⟨rfl, rfl, rfl, rfl, rfl, hlt, ?_⟩
  intro hEq
  have hc := congrArg String.length hEq
  omega

/-- C2 (code evaluated at the failing input): aggregating the inputs of a
node that has one labelled and one unlabelled predecessor crashes with a
KeyError (embedded as none) instead of attaching the unlabelled output
without an alias; with a uniform slot situation (all predecessors labelled,
or none) the aggregation produces one dataset per predecessor keyed by the
producer's name with the registered alias. -/
theorem C2_mixed_label_aggregation_crashes :
    buildInput [(2, [(0, "x")])] attrsN (fun _ => some 7) 2 [0, 1] = none ∧
    buildInput [(2, [(0, "x")])] attrsN (fun _ => some 7) 2 [0] =
      some [{ dsName := "0", payload := 7, aliases := some ["x"] }] ∧
    buildInput [] attrsN (fun _ => some 7) 2 [0, 1] =
      some [{ dsName := "0", payload := 7, aliases := none },
            { dsName := "1", payload := 7, aliases := none }] := by
  refine ⟨rfl, ?_, ?_⟩ <;> decide

/-- Counterexample to C10: a slot label registered by an earlier define call
does not always survive a redefine — a new schema registering a different
label for the same (predecessor, successor) pair overwrites it. -/
theorem C10_counterexample :
    slotLookup dagSlotX.slots 1 0 = some "x" ∧
    slotLookup dagSlotXY.slots 1 0 = some "y" ∧
    slotLookup dagSlotXY.slots 1 0 ≠ some "x" := by
  refine ⟨?_, ?_, ?_⟩ <;> decide

/-!  Slot-map lemmas for the define frame effect (C10). -/

theorem innerLookup_innerInsert (pre : Nat) (s : String) :
    ∀ (inner : List (Nat × String)) (q : Nat),
      innerLookup (innerInsert pre s inner) q =
        if q = pre then some s else innerLookup inner q := by
  intro inner
  induction inner with
  | nil =>
    intro q
    by_cases h : q = pre
    · subst h
      simp [innerInsert, innerLookup]
    · have hne : (pre == q) = false := by
        simp only [beq_eq_false_iff_ne, ne_eq]
        exact fun hh => h hh.symm
      simp [innerInsert, innerLookup, hne, h]
  | cons av t ih =>
    obtain ⟨a, v⟩ := av
    intro q
    by_cases hap : a = pre
    · subst hap
      simp only [innerInsert, beq_self_eq_true, if_true]
      by_cases hq : q = a
      · subst hq
        simp [innerLookup]
      · have hne : (a == q) = false := by
          simp only [beq_eq_false_iff_ne, ne_eq]
          exact fun hh => hq hh.symm
        simp [innerLookup, hne, hq]
    · have hne : (a == pre) = false := by
        simp only [beq_eq_false_iff_ne, ne_eq]
        exact hap
      simp only [innerInsert, hne, Bool.false_eq_true, if_false]
      by_cases hq : q = a
      · subst hq
        have hqp : ¬ q = pre := fun hh => hap hh
        simp [innerLookup, hqp]
      · have hne2 : (a == q) = false := by
          simp only [beq_eq_false_iff_ne, ne_eq]
          exact fun hh => hq hh.symm
        simp only [innerLookup, hne2, Bool.false_eq_true, if_false]
        exact ih q

theorem slotLookup_slotInsert (a b : Nat) (v : String) :
    ∀ (m : SlotMap) (succ pre : Nat),
      slotLookup (slotInsert m a b v) succ pre =
        if succ = a ∧ pre = b then some v else slotLookup m succ pre := by
  intro m
  induction m with
  | nil =>
    intro succ pre
    by_cases hs : succ = a
    · subst hs
      by_cases hp : pre = b
      · subst hp
        simp [slotInsert, slotLookup, innerLookup]
      · have hpb : (b == pre) = false := by
          simp only [beq_eq_false_iff_ne, ne_eq]
          exact fun hh => hp hh.symm
        simp [slotInsert, slotLookup, innerLookup, hpb, hp]
    · have hsa : (a == succ) = false := by
        simp only [beq_eq_false_iff_ne, ne_eq]
        exact fun hh => hs hh.symm
      simp [slotInsert, slotLookup, hsa, hs]
  | cons kin rest ih =>
    obtain ⟨k, inner⟩ := kin
    intro succ pre
    by_cases hka : k = a
    · subst hka
      simp only [slotInsert, beq_self_eq_true, if_true]
      by_cases hs : succ = k
      · subst hs
        simp only [slotLookup, beq_self_eq_true, if_true]
        rw [innerLookup_innerInsert]
        simp
      · have hks : (k == succ) = false := by
          simp only [beq_eq_false_iff_ne, ne_eq]
          exact fun hh => hs hh.symm
        have hsk : ¬ (succ = k ∧ pre = b) := fun hh => hs hh.1
        simp [slotLookup, hks, hsk]
    · have hne : (k == a) = false := by
        simp only [beq_eq_false_iff_ne, ne_eq]
        exact hka
      simp only [slotInsert, hne, Bool.false_eq_true, if_false]
      by_cases hs : succ = k
      · subst hs
        have hsa : ¬ (succ = a ∧ pre = b) := fun hh => hka hh.1
        simp [slotLookup, hsa]
      · have hks : (k == succ) = false := by
          simp only [beq_eq_false_iff_ne, ne_eq]
          exact fun hh => hs hh.symm
        simp only [slotLookup, hks, Bool.false_eq_true, if_false]
        exact ih succ pre

theorem dictStep_graph (parent : Nat) (acc : Graph × SlotMap) (cd : Nat × Option String) :
    (dictStep parent acc cd).1 = acc.1.addEdge parent cd.1 := by
  obtain ⟨c, o⟩ := cd
  rcases o with _ | s
  · rfl
  · unfold dictStep
    by_cases he : s == ""
    · simp [he]
    · simp [he]

theorem dictFold_lookup (parent succ pre : Nat) :
    ∀ (cs : List (Nat × Option String)) (g : Graph) (slots : SlotMap),
      (∀ cd ∈ cs, cd.1 = succ → parent = pre →
        match cd.2 with
        | some s => s = ""
        | none => True) →
      slotLookup ((cs.foldl (dictStep parent) (g, slots)).2) succ pre =
        slotLookup slots succ pre := by
  intro cs
  induction cs with
  | nil => intro g slots _; rfl
  | cons cd t ih =>
    intro g slots h
    simp only [List.foldl_cons]
    obtain ⟨c, o⟩ := cd
    rcases o with _ | s
    · exact ih (g.addEdge parent c) slots (fun x hx => h x (List.mem_cons_of_mem _ hx))
    · by_cases he : s == ""
      · have hstep : dictStep parent (g, slots) (c, some s) = (g.addEdge parent c, slots) := by
          simp [dictStep, he]
        rw [hstep]
        exact ih (g.addEdge parent c) slots (fun x hx => h x (List.mem_cons_of_mem _ hx))
      · have hstep : dictStep parent (g, slots) (c, some s) =
            (g.addEdge parent c, slotInsert slots c parent s) := by
          simp [dictStep, he]
        rw [hstep]
        rw [ih (g.addEdge parent c) (slotInsert slots c parent s)
            (fun x hx => h x (List.mem_cons_of_mem _ hx))]
        rw [slotLookup_slotInsert]
        by_cases hc : succ = c ∧ pre = parent
        · exfalso
          have hh := h (c, some s) (List.mem_cons_self _ _) hc.1.symm hc.2.symm
          have hs' : ¬ s = "" := by simpa using he
          exact hs' hh
        · rw [if_neg hc]

theorem dictFold_isSome (parent succ pre : Nat) :
    ∀ (cs : List (Nat × Option String)) (g : Graph) (slots : SlotMap),
      (slotLookup slots succ pre).isSome →
      (slotLookup ((cs.foldl (dictStep parent) (g, slots)).2) succ pre).isSome := by
  intro cs
  induction cs with
  | nil => intro g slots h; exact h
  | cons cd t ih =>
    intro g slots h
    simp only [List.foldl_cons]
    obtain ⟨c, o⟩ := cd
    rcases o with _ | s
    · exact ih (g.addEdge parent c) slots h
    · by_cases he : s == ""
      · have hstep : dictStep parent (g, slots) (c, some s) = (g.addEdge parent c, slots) := by
          simp [dictStep, he]
        rw [hstep]
        exact ih (g.addEdge parent c) slots h
      · have hstep : dictStep parent (g, slots) (c, some s) =
            (g.addEdge parent c, slotInsert slots c parent s) := by
          simp [dictStep, he]
        rw [hstep]
        refine ih (g.addEdge parent c) (slotInsert slots c parent s) ?_
        rw [slotLookup_slotInsert]
        by_cases hc : succ = c ∧ pre = parent
        · rw [if_pos hc]
          rfl
        · rw [if_neg hc]
          exact h

theorem defineStep_lookup (parent : Nat) (spec : ChildSpec) (succ pre : Nat)
    (g : Graph) (slots : SlotMap)
    (h : registersLabel [(parent, spec)] pre succ = false) :
    slotLookup ((defineStep (g, slots) (parent, spec)).2) succ pre =
      slotLookup slots succ pre := by
  cases spec with
  | noneSpec => rfl
  | single c => rfl
  | listSpec cs =>
    by_cases hemp : cs.isEmpty
    · simp [defineStep, hemp]
    · simp [defineStep, hemp]
  | dictSpec cs =>
    by_cases hemp : cs.isEmpty
    · simp [defineStep, hemp]
    · have hred : defineStep (g, slots) (parent, ChildSpec.dictSpec cs) =
          cs.foldl (dictStep parent) (g, slots) := by
        simp [defineStep, hemp]
      rw [hred]
      apply dictFold_lookup
      intro cd hcd hc hp
      rcases ho : cd.2 with _ | s
      · trivial
      · show s = ""
        by_contra hne
        have hreg : dictRegisters cs succ = true := by
          unfold dictRegisters
          rw [List.any_eq_true]
          refine ⟨cd, hcd, ?_⟩
          rw [ho]
          simp [hc, hne]
        have : registersLabel [(parent, ChildSpec.dictSpec cs)] pre succ = true := by
          unfold registersLabel
          rw [List.any_eq_true]
          refine ⟨(parent, ChildSpec.dictSpec cs), List.mem_singleton_self _, ?_⟩
          simp [hp, hreg]
        rw [this] at h
        exact Bool.true_eq_false.mp h

theorem defineStep_isSome (parent : Nat) (spec : ChildSpec) (succ pre : Nat)
    (g : Graph) (slots : SlotMap)
    (h : (slotLookup slots succ pre).isSome) :
    (slotLookup ((defineStep (g, slots) (parent, spec)).2) succ pre).isSome := by
  cases spec with
  | noneSpec => exact h
  | single c => exact h
  | listSpec cs =>
    by_cases hemp : cs.isEmpty
    · simpa [defineStep, hemp] using h
    · simpa [defineStep, hemp] using h
  | dictSpec cs =>
    by_cases hemp : cs.isEmpty
    · simpa [defineStep, hemp] using h
    · have hred : defineStep (g, slots) (parent, ChildSpec.dictSpec cs) =
          cs.foldl (dictStep parent) (g, slots) := by
        simp [defineStep, hemp]
      rw [hred]
      exact dictFold_isSome parent succ pre cs g slots h

theorem schemaFold_lookup (succ pre : Nat) :
    ∀ (schema : Schema) (g : Graph) (slots : SlotMap),
      registersLabel schema pre succ = false →
      slotLookup ((schema.foldl defineStep (g, slots)).2) succ pre =
        slotLookup slots succ pre := by
  intro schema
  induction schema with
  | nil => intro g slots _; rfl
  | cons e t ih =>
    intro g slots h
    obtain ⟨parent, spec⟩ := e
    have hhead : registersLabel [(parent, spec)] pre succ = false := by
      unfold registersLabel at h ⊢
      simp only [List.any_cons, List.any_nil, Bool.or_eq_false_iff] at h ⊢
      exact ⟨h.1, trivial⟩
    have htail : registersLabel t pre succ = false := by
      unfold registersLabel at h ⊢
      simp only [List.any_cons, Bool.or_eq_false_iff] at h
      exact h.2
    simp only [List.foldl_cons]
    have := ih (defineStep (g, slots) (parent, spec)).1
      (defineStep (g, slots) (parent, spec)).2 htail
    calc slotLookup ((t.foldl defineStep (defineStep (g, slots) (parent, spec))).2) succ pre
        = slotLookup ((defineStep (g, slots) (parent, spec)).2) succ pre := this
      _ = slotLookup slots succ pre := defineStep_lookup parent spec succ pre g slots hhead

theorem schemaFold_isSome (succ pre : Nat) :
    ∀ (schema : Schema) (g : Graph) (slots : SlotMap),
      (slotLookup slots succ pre).isSome →
      (slotLookup ((schema.foldl defineStep (g, slots)).2) succ pre).isSome := by
  intro schema
  induction schema with
  | nil => intro g slots h; exact h
  | cons e t ih =>
    intro g slots h
    obtain ⟨parent, spec⟩ := e
    simp only [List.foldl_cons]
    exact ih (defineStep (g, slots) (parent, spec)).1
      (defineStep (g, slots) (parent, spec)).2
      (defineStep_isSome parent spec succ pre g slots h)

theorem dictFold_graph (parent : Nat) :
    ∀ (cs : List (Nat × Option String)) (g : Graph) (s1 s2 : SlotMap),
      (cs.foldl (dictStep parent) (g, s1)).1 = (cs.foldl (dictStep parent) (g, s2)).1 := by
  intro cs
  induction cs with
  | nil => intro g s1 s2; rfl
  | cons cd t ih =>
    intro g s1 s2
    simp only [List.foldl_cons]
    calc (t.foldl (dictStep parent) (dictStep parent (g, s1) cd)).1
        = (t.foldl (dictStep parent)
            (g.addEdge parent cd.1, (dictStep parent (g, s1) cd).2)).1 := by
          rw [show dictStep parent (g, s1) cd =
              (g.addEdge parent cd.1, (dictStep parent (g, s1) cd).2) from
            Prod.ext (dictStep_graph parent (g, s1) cd) rfl]
      _ = (t.foldl (dictStep parent)
            (g.addEdge parent cd.1, (dictStep parent (g, s2) cd).2)).1 := ih _ _ _
      _ = (t.foldl (dictStep parent) (dictStep parent (g, s2) cd)).1 := by
          rw [show dictStep parent (g, s2) cd =
              (g.addEdge parent cd.1, (dictStep parent (g, s2) cd).2) from
            Prod.ext (dictStep_graph parent (g, s2) cd) rfl]

theorem defineStep_graph (e : Nat × ChildSpec) (g : Graph) (s1 s2 : SlotMap) :
    (defineStep (g, s1) e).1 = (defineStep (g, s2) e).1 := by
  obtain ⟨parent, spec⟩ := e
  cases spec with
  | noneSpec => rfl
  | single c => rfl
  | listSpec cs =>
    by_cases hemp : cs.isEmpty
    · simp [defineStep, hemp]
    · simp [defineStep, hemp]
  | dictSpec cs =>
    by_cases hemp : cs.isEmpty
    · simp [defineStep, hemp]
    · simp only [defineStep, hemp, Bool.false_eq_true, if_false]
      exact dictFold_graph parent cs g s1 s2

theorem schemaFold_graph :
    ∀ (schema : Schema) (g : Graph) (s1 s2 : SlotMap),
      (schema.foldl defineStep (g, s1)).1 = (schema.foldl defineStep (g, s2)).1 := by
  intro schema
  induction schema with
  | nil => intro g s1 s2; rfl
  | cons e t ih =>
    intro g s1 s2
    simp only [List.foldl_cons]
    calc (t.foldl defineStep (defineStep (g, s1) e)).1
        = (t.foldl defineStep ((defineStep (g, s1) e).1, (defineStep (g, s1) e).2)).1 := rfl
      _ = (t.foldl defineStep ((defineStep (g, s1) e).1, (defineStep (g, s2) e).2)).1 :=
          ih _ _ _
      _ = (t.foldl defineStep ((defineStep (g, s2) e).1, (defineStep (g, s2) e).2)).1 := by
          rw [defineStep_graph e g s1 s2]
      _ = (t.foldl defineStep (defineStep (g, s2) e)).1 := rfl

/-- C10 (amended): define clears the graph (the rebuilt graph depends on the
schema alone, not on the previous graph or slot map) but never clears the
slot map: a slot entry from an earlier define call still resolves to some
label afterwards, and to the same label whenever the new schema does not
register a non-empty label for the same (predecessor, successor) pair. -/
theorem C10_slot_map_persists (d : DagS) (schema : Schema) (pre succ : Nat) (lbl : String)
    (h : slotLookup d.slots succ pre = some lbl) :
    (∃ l', slotLookup (d.define schema).slots succ pre = some l') ∧
    (registersLabel schema pre succ = false →
      slotLookup (d.define schema).slots succ pre = some lbl) ∧
    (d.define schema).graph = ((DagS.init "fresh" true).define schema).graph := by
  have hslots : (d.define schema).slots = (schema.foldl defineStep (Graph.empty, d.slots)).2 :=
    rfl
  have hgraph : (d.define schema).graph = (schema.foldl defineStep (Graph.empty, d.slots)).1 :=
    rfl
  refine ⟨?_, ?_, ?_⟩
  · rw [hslots]
    have hsome := schemaFold_isSome succ pre schema Graph.empty d.slots (by rw [h]; rfl)
    exact Option.isSome_iff_exists.mp hsome
  · intro hreg
    rw [hslots, schemaFold_lookup succ pre schema Graph.empty d.slots hreg]
    exact h
  · rw [hgraph]
    exact schemaFold_graph schema Graph.empty d.slots []

/-- Witness for the amended C10: the label x registered for the pair 0 → 1
survives a redefine whose schema only labels the unrelated pair 5 → 6. -/
theorem C10_slot_map_persists_witness :
    slotLookup (DagS.define dagSlotX [(5, ChildSpec.dictSpec [(6, some "z")])]).slots 1 0 =
      some "x" :=
  (C10_slot_map_persists dagSlotX [(5, ChildSpec.dictSpec [(6, some "z")])] 0 1 "x"
    (by decide)).2.1 (by decide)

/-- Counterexample to C4: with immediate expiry and the cleanup list [0, 1]
of the join dag, both entries qualify (their only successor 2 is
dispatched), yet the very next cleanup pass forgets only node 0 — removing
it slides node 1 under the iterator, so node 1 survives the pass without a
forget() call. -/
theorem C4_counterexample :
    cleanupQualifies ctxJoin stJoinCleanup 0 = true ∧
    cleanupQualifies ctxJoin stJoinCleanup 1 = true ∧
    (cleanupPass ctxJoin stJoinCleanup).forgotten = [0] ∧
    (cleanupPass ctxJoin stJoinCleanup).cleanup = [1] ∧
    1 ∉ (cleanupPass ctxJoin stJoinCleanup).forgotten := by
  refine ⟨?_, ?_, ?_, ?_, ?_⟩ <;> decide

theorem cleanupQualifies_congr (C : Ctx) (st st' : RunState) (x : Nat)
    (h : st.dispatched = st'.dispatched) :
    cleanupQualifies C st x = cleanupQualifies C st' x := by
  unfold cleanupQualifies hasResult
  rw [h]

theorem cleanupGo_of_ge (C : Ctx) (bound i : Nat) (st : RunState)
    (h : st.cleanup.length ≤ i) : cleanupGo C bound i st = st := by
  cases bound with
  | zero => rfl
  | succ bound =>
    rw [cleanupGo]
    rw [dif_neg (by omega)]

theorem cleanupGo_all_qualify (C : Ctx) (hexp : C.cfg.resultExpiresZero = true) :
    ∀ (bound : Nat) (pref rest : List Nat) (st : RunState),
      st.cleanup = pref ++ rest → rest.length ≤ bound →
      st.cleanup.Nodup →
      (∀ x ∈ st.cleanup, cleanupQualifies C st x = true) →
      cleanupGo C bound pref.length st =
        { st with
          cleanup := pref ++ oddIdx rest,
          forgotten := st.forgotten ++ evenIdx rest } := by
  intro bound
  induction bound with
  | zero =>
    intro pref rest st hcl hlen _ _
    have hrest : rest = [] := List.eq_nil_of_length_eq_zero (Nat.le_zero.mp hlen)
    subst hrest
    show st = _
    have hp : st.cleanup = pref := by simpa using hcl
    rw [show oddIdx ([] : List Nat) = [] from rfl, show evenIdx ([] : List Nat) = [] from rfl]
    simp only [List.append_nil]
    rw [← hp]
  | succ bound ih =>
    intro pref rest st hcl hlen hnd hq
    cases rest with
    | nil =>
      have hge : st.cleanup.length ≤ pref.length := by
        rw [hcl]
        simp
      rw [cleanupGo_of_ge C (bound + 1) pref.length st hge]
      have hp : st.cleanup = pref := by simpa using hcl
      rw [show oddIdx ([] : List Nat) = [] from rfl, show evenIdx ([] : List Nat) = [] from rfl]
      simp only [List.append_nil]
      rw [← hp]
    | cons task rest' =>
      have hi : pref.length < st.cleanup.length := by
        rw [hcl]
        simp only [List.length_append, List.length_cons]
        omega
      have hget : st.cleanup.get ⟨pref.length, hi⟩ = task := by
        simp only [List.get_eq_getElem, hcl]
        rw [List.getElem_append_right (Nat.le_refl _)]
        simp
      have htmem : task ∈ st.cleanup := by
        rw [hcl]
        exact List.mem_append_right _ (List.mem_cons_self _ _)
      have htnp : task ∉ pref := by
        intro hmem
        rw [hcl] at hnd
        rcases List.nodup_append.mp hnd with ⟨_, _, hdisj⟩
        exact hdisj hmem (List.mem_cons_self _ _)
      have herase : st.cleanup.erase task = pref ++ rest' := by
        rw [hcl, List.erase_append_right _ htnp, List.erase_cons_head]
      have hqt : cleanupQualifies C st task = true := hq task htmem
      rw [cleanupGo]
      rw [dif_pos hi]
      simp only [hget, hqt, if_true, hexp]
      set st' : RunState :=
        { st with forgotten := st.forgotten ++ [task], cleanup := st.cleanup.erase task }
        with hst'
      have hcl' : st'.cleanup = pref ++ rest' := herase
      have hnd' : st'.cleanup.Nodup := hnd.erase task
      have hq' : ∀ x ∈ st'.cleanup, cleanupQualifies C st' x = true := by
        intro x hx
        rw [← cleanupQualifies_congr C st st' x rfl]
        exact hq x (List.mem_of_mem_erase hx)
      cases rest' with
      | nil =>
        have hge : st'.cleanup.length ≤ pref.length + 1 := by
          rw [hcl']
          simp
        rw [cleanupGo_of_ge C bound (pref.length + 1) st' hge]
        rw [hst']
        show _ = { st with
          cleanup := pref ++ oddIdx [task],
          forgotten := st.forgotten ++ evenIdx [task] }
        rw [show oddIdx [task] = [] from rfl, show evenIdx [task] = [task] from rfl,
            List.append_nil, herase, List.append_nil]
      | cons b rest'' =>
        have hcl'' : st'.cleanup = (pref ++ [b]) ++ rest'' := by
          rw [hcl']
          simp
        have hlen'' : rest''.length ≤ bound := by
          simp only [List.length_cons] at hlen
          omega
        have hrec := ih (pref ++ [b]) rest'' st' hcl'' hlen'' hnd' hq'
        have hidx : (pref ++ [b]).length = pref.length + 1 := by simp
        rw [hidx] at hrec
        rw [hrec, hst']
        show _ = { st with
          cleanup := pref ++ oddIdx (task :: b :: rest''),
          forgotten := st.forgotten ++ evenIdx (task :: b :: rest'') }
        rw [show oddIdx (task :: b :: rest'') = b :: oddIdx rest'' from rfl,
            show evenIdx (task :: b :: rest'') = task :: evenIdx rest'' from rfl]
        simp

/-- C4 (amended): under immediate expiry, a cleanup pass in which every node
of the cleanup list qualifies (all successors have a dispatched result)
forgets and removes exactly the entries at even positions of the list; the
entries at odd positions slide under the iterator when their predecessor in
the list is removed, survive the pass, and are handled on a later pass. -/
theorem C4_cleanup_alternates (C : Ctx) (st : RunState)
    (hnd : st.cleanup.Nodup)
    (hq : ∀ x ∈ st.cleanup, cleanupQualifies C st x = true)
    (hexp : C.cfg.resultExpiresZero = true) :
    (cleanupPass C st).cleanup = oddIdx st.cleanup ∧
    (cleanupPass C st).forgotten = st.forgotten ++ evenIdx st.cleanup := by
  have h := cleanupGo_all_qualify C hexp st.cleanup.length [] st.cleanup st rfl le_rfl hnd hq
  unfold cleanupPass
  rw [show (([] : List Nat)).length = 0 from rfl] at h
  rw [h]
  simp

/-- Witness for the amended C4 at the concrete join-dag state: the pass
forgets exactly the even-position entry 0 and keeps the odd-position entry
1. -/
theorem C4_cleanup_alternates_witness :
    (cleanupPass ctxJoin stJoinCleanup).cleanup = oddIdx stJoinCleanup.cleanup ∧
    (cleanupPass ctxJoin stJoinCleanup).forgotten =
      stJoinCleanup.forgotten ++ evenIdx stJoinCleanup.cleanup :=
  C4_cleanup_alternates ctxJoin stJoinCleanup (by decide) (by decide) rfl

/-- Counterexample to C5: the stop signal is not sampled at most once per
run.  A complete run of two isolated nodes with the signal constantly false
samples signal.is_stopped four times (once per task per advance pass while
the flag is unlatched). -/
theorem C5_counterexample :
    runDag dagTwoRoots attrsN (some cfg0) envPlain 10 =
      Except.ok { tasks := [], cleanup := [], dispatched := [1, 0], skipped := [],
                  forgotten := [1, 0], stopped := false, samples := 4, time := 4 } ∧
    (4 : Nat) ≠ 1 :=
  ⟨rfl, by decide⟩

/-!  Frame lemmas for the advance pass: successor processing never touches
the dispatch log, the stop flag, the sample counter or the clock. -/

theorem skipNode_frame (n : Nat) (st : RunState) :
    (skipNode n st).dispatched = st.dispatched ∧
    (skipNode n st).stopped = st.stopped ∧
    (skipNode n st).samples = st.samples ∧
    (skipNode n st).time = st.time ∧
    (skipNode n st).cleanup = st.cleanup ∧
    (skipNode n st).tasks = st.tasks := by
  unfold skipNode
  split <;> simp

theorem limitApply_frame (C : Ctx) (task next : Nat) (st : RunState) :
    (limitApply C task next st).dispatched = st.dispatched ∧
    (limitApply C task next st).stopped = st.stopped ∧
    (limitApply C task next st).samples = st.samples ∧
    (limitApply C task next st).time = st.time ∧
    (limitApply C task next st).cleanup = st.cleanup ∧
    (limitApply C task next st).tasks = st.tasks := by
  unfold limitApply
  rcases h : C.env.limitOf task with _ | L
  · simp
  · by_cases hc : C.attrs.nameOf next ∈ List.map (limitItemName C.attrs) L
    · simp [hc]
    · simp only [hc, if_false]
      exact skipNode_frame next st

theorem succStep_frame (C : Ctx) (task : Nat) (acc : RunState × Bool) (next : Nat) :
    (succStep C task acc next).1.dispatched = acc.1.dispatched ∧
    (succStep C task acc next).1.stopped = acc.1.stopped ∧
    (succStep C task acc next).1.samples = acc.1.samples ∧
    (succStep C task acc next).1.time = acc.1.time ∧
    (succStep C task acc next).1.cleanup = acc.1.cleanup := by
  have hl := limitApply_frame C task next acc.1
  unfold succStep
  by_cases h1 : next ∈ (limitApply C task next acc.1).tasks ||
      hasResult (limitApply C task next acc.1) next
  · simp only [h1, if_true]
    exact ⟨hl.1, hl.2.1, hl.2.2.1, hl.2.2.2.1, hl.2.2.2.2.1⟩
  · simp only [h1, Bool.false_eq_true, if_false]
    by_cases h2 : readyCheck C (limitApply C task next acc.1) next
    · simp only [h2, if_true]
      have hs := skipNode_frame next (limitApply C task next acc.1)
      by_cases h3 : allSkippedProp C (limitApply C task next acc.1) next
      · simp only [h3, if_true]
        by_cases h4 : (skipNode next (limitApply C task next acc.1)).stopped = true
        · rw [if_pos h4]
          exact ⟨hs.1.trans hl.1, hs.2.1.trans hl.2.1, hs.2.2.1.trans hl.2.2.1,
                 hs.2.2.2.1.trans hl.2.2.2.1, hs.2.2.2.2.1.trans hl.2.2.2.2.1⟩
        · rw [if_neg h4]
          exact ⟨hs.1.trans hl.1, hs.2.1.trans hl.2.1, hs.2.2.1.trans hl.2.2.1,
                 hs.2.2.2.1.trans hl.2.2.2.1, hs.2.2.2.2.1.trans hl.2.2.2.2.1⟩
      · simp only [h3, Bool.false_eq_true, if_false]
        by_cases h4 : (limitApply C task next acc.1).stopped = true
        · rw [if_pos h4]
          exact ⟨hl.1, hl.2.1, hl.2.2.1, hl.2.2.2.1, hl.2.2.2.2.1⟩
        · rw [if_neg h4]
          exact ⟨hl.1, hl.2.1, hl.2.2.1, hl.2.2.2.1, hl.2.2.2.2.1⟩
    · simp only [h2, Bool.false_eq_true, if_false]
      exact ⟨hl.1, hl.2.1, hl.2.2.1, hl.2.2.2.1, hl.2.2.2.2.1⟩

theorem succFoldList_frame (C : Ctx) (task : Nat) : ∀ (l : List Nat) (acc : RunState × Bool),
    ((l.foldl (succStep C task) acc).1.dispatched = acc.1.dispatched ∧
     (l.foldl (succStep C task) acc).1.stopped = acc.1.stopped ∧
     (l.foldl (succStep C task) acc).1.samples = acc.1.samples ∧
     (l.foldl (succStep C task) acc).1.time = acc.1.time ∧
     (l.foldl (succStep C task) acc).1.cleanup = acc.1.cleanup) := by
  intro l
  induction l with
  | nil => intro acc; simp
  | cons x xs ih =>
    intro acc
    have h1 := succStep_frame C task acc x
    have h2 := ih (succStep C task acc x)
    simp only [List.foldl_cons]
    exact ⟨h2.1.trans h1.1, h2.2.1.trans h1.2.1, h2.2.2.1.trans h1.2.2.1,
           h2.2.2.2.1.trans h1.2.2.2.1, h2.2.2.2.2.trans h1.2.2.2.2⟩

theorem succFold_frame (C : Ctx) (task : Nat) (st : RunState) :
    (succFold C task st).1.dispatched = st.dispatched ∧
    (succFold C task st).1.stopped = st.stopped ∧
    (succFold C task st).1.samples = st.samples ∧
    (succFold C task st).1.time = st.time ∧
    (succFold C task st).1.cleanup = st.cleanup :=
  succFoldList_frame C task (C.g.succs task) (st, true)

/-- From a latched-stopped state one task step takes no sample, keeps the
latch and dispatches nothing. -/
theorem taskStep_stopped (C : Ctx) (task : Nat) (st st' : RunState)
    (hstop : st.stopped = true) (h : taskStep C task st = some st') :
    st'.stopped = true ∧ st'.samples = st.samples ∧ st'.dispatched = st.dispatched := by
  simp only [taskStep] at h
  have hss : sampleSignal C st = st := by
    unfold sampleSignal
    rw [hstop]
    simp
  rw [hss] at h
  by_cases hr : hasResult st task
  · rw [hr] at h
    simp only [if_true] at h
    by_cases hf : C.env.fin st.time task
    · rw [hf] at h
      simp only [if_true] at h
      have hfr := succFold_frame C task st
      by_cases hq : (succFold C task st).2
      · rw [hq] at h
        simp only [if_true, Option.some.injEq] at h
        subst h
        simp_all
      · simp only [hq, Bool.false_eq_true, if_false, Option.some.injEq] at h
        subst h
        simp_all
    · simp only [hf, Bool.false_eq_true, if_false, Option.some.injEq] at h
      subst h
      exact ⟨hstop, rfl, rfl⟩
  · simp only [hr, Bool.false_eq_true, if_false] at h
    by_cases hp : (C.g.preds task).isEmpty
    · rw [hp] at h
      simp only [if_true, hstop, Option.some.injEq] at h
      subst h
      exact ⟨hstop, rfl, rfl⟩
    · simp only [hp, Bool.false_eq_true, if_false] at h
      rcases hb : buildInput C.slots C.attrs (readResultData C st) task (C.g.preds task) with
        _ | ds
      · rw [hb] at h
        simp at h
      · rw [hb] at h
        simp only [hstop, if_true, Option.some.injEq] at h
        subst h
        exact ⟨hstop, rfl, rfl⟩

theorem advanceGo_stopped (C : Ctx) : ∀ (l : List Nat) (st st' : RunState),
    st.stopped = true → advanceGo C l st = some st' →
    st'.stopped = true ∧ st'.samples = st.samples ∧ st'.dispatched = st.dispatched := by
  intro l
  induction l with
  | nil =>
    intro st st' hstop h
    simp only [advanceGo, Option.some.injEq] at h
    subst h
    exact ⟨hstop, rfl, rfl⟩
  | cons x xs ih =>
    intro st st' hstop h
    simp only [advanceGo] at h
    rcases hx : taskStep C x st with _ | st1
    · rw [hx] at h; simp at h
    · rw [hx] at h
      have h1 := taskStep_stopped C x st st1 hstop hx
      have h2 := ih st1 st' h1.1 h
      exact ⟨h2.1, h2.2.1.trans h1.2.1, h2.2.2.trans h1.2.2⟩

/-- C5 (amended): the stop signal is sampled once per examined task while the
flag is unlatched (see the counterexample for the multiple samples); once a
true value has been observed, the flag is latched for the remainder of the
run: no further sample of the signal is taken and no further submit call is
made, whatever else still happens (already dispatched nodes keep being
polled and cleanup passes keep running). -/
theorem C5_stop_latched (C : Ctx) (fuel : Nat) : ∀ (st st' : RunState),
    st.stopped = true → runLoop C fuel st = some st' →
    st'.stopped = true ∧ st'.samples = st.samples ∧ st'.dispatched = st.dispatched := by
  induction fuel with
  | zero =>
    intro st st' hstop h
    simp only [runLoop, Option.some.injEq] at h
    subst h
    exact ⟨hstop, rfl, rfl⟩
  | succ fuel ih =>
    intro st st' hstop h
    simp only [runLoop] at h
    by_cases hterm : st.tasks.isEmpty && st.cleanup.isEmpty
    · rw [hterm] at h
      simp only [if_true, Option.some.injEq] at h
      subst h
      exact ⟨hstop, rfl, rfl⟩
    · have hterm' : (st.tasks.isEmpty && st.cleanup.isEmpty) = false := by
        simpa using hterm
      rw [hterm'] at h
      simp only [Bool.false_eq_true, if_false] at h
      rcases hb : loopBody C st with _ | st1
      · rw [hb] at h; simp at h
      · rw [hb] at h
        unfold loopBody at hb
        set stt := { st with time := st.time + 1 } with hstt
        have hcf := cleanupPass_fields C stt
        have hstop2 : (cleanupPass C stt).stopped = true := by
          rw [hcf.2.2.2.1]; exact hstop
        have ha := advanceGo_stopped C (cleanupPass C stt).tasks.reverse
          (cleanupPass C stt) st1 hstop2 hb
        have h2 := ih st1 st' ha.1 h
        refine ⟨h2.1, ?_, ?_⟩
        · rw [h2.2.1, ha.2.1, hcf.2.2.2.2.1]
        · rw [h2.2.2, ha.2.2, hcf.2.1]

/-- Witness for the amended C5 at a concrete latched state of the join dag:
three further loop iterations keep the latch, take no sample and dispatch
nothing. -/
theorem C5_stop_latched_witness :
    ∃ st', runLoop ctxJoin 3 stStoppedEx = some st' ∧
      st'.stopped = true ∧ st'.samples = stStoppedEx.samples ∧
      st'.dispatched = stStoppedEx.dispatched :=
  ⟨_, rfl, C5_stop_latched ctxJoin 3 stStoppedEx _ rfl rfl⟩

/-!  Skip-flag lemmas: skip() only ever adds to the skip set, and the limit
check marks exactly the successors whose name misses the limit list. -/

theorem skipNode_mem (n : Nat) (st : RunState) : n ∈ (skipNode n st).skipped := by
  unfold skipNode
  by_cases h : n ∈ st.skipped
  · simpa [h]
  · simp [h]

theorem skipNode_skipped_mono (n x : Nat) (st : RunState) (h : x ∈ st.skipped) :
    x ∈ (skipNode n st).skipped := by
  unfold skipNode
  by_cases hm : n ∈ st.skipped
  · simpa [hm]
  · simp [hm, List.mem_append]
    exact Or.inl h

theorem limitApply_skipped_mono (C : Ctx) (task next x : Nat) (st : RunState)
    (h : x ∈ st.skipped) : x ∈ (limitApply C task next st).skipped := by
  unfold limitApply
  rcases hL : C.env.limitOf task with _ | L
  · exact h
  · by_cases hc : C.attrs.nameOf next ∈ List.map (limitItemName C.attrs) L
    · simpa [hc]
    · simp only [hc, if_false]
      exact skipNode_skipped_mono next x st h

theorem limitApply_skips (C : Ctx) (task next : Nat) (st : RunState) (L : List LimitItem)
    (hL : C.env.limitOf task = some L)
    (hn : C.attrs.nameOf next ∉ L.map (limitItemName C.attrs)) :
    next ∈ (limitApply C task next st).skipped := by
  unfold limitApply
  simp only [hL]
  rw [if_neg hn]
  exact skipNode_mem next st

theorem succStep_skipped_super (C : Ctx) (task : Nat) (acc : RunState × Bool) (next x : Nat)
    (h : x ∈ (limitApply C task next acc.1).skipped) :
    x ∈ (succStep C task acc next).1.skipped := by
  unfold succStep
  by_cases h1 : next ∈ (limitApply C task next acc.1).tasks ||
      hasResult (limitApply C task next acc.1) next
  · simpa [h1]
  · simp only [h1, Bool.false_eq_true, if_false]
    by_cases h2 : readyCheck C (limitApply C task next acc.1) next
    · simp only [h2, if_true]
      by_cases h3 : allSkippedProp C (limitApply C task next acc.1) next
      · simp only [h3, if_true]
        have hs := skipNode_skipped_mono next x (limitApply C task next acc.1) h
        by_cases h4 : (skipNode next (limitApply C task next acc.1)).stopped = true
        · rw [if_pos h4]
          exact hs
        · rw [if_neg h4]
          exact hs
      · simp only [h3, Bool.false_eq_true, if_false]
        by_cases h4 : (limitApply C task next acc.1).stopped = true
        · rw [if_pos h4]
          exact h
        · rw [if_neg h4]
          exact h
    · simpa [h2]

theorem succStep_skipped_mono (C : Ctx) (task : Nat) (acc : RunState × Bool) (next x : Nat)
    (h : x ∈ acc.1.skipped) : x ∈ (succStep C task acc next).1.skipped :=
  succStep_skipped_super C task acc next x (limitApply_skipped_mono C task next x acc.1 h)

theorem foldl_succStep_skipped_mono (C : Ctx) (task : Nat) :
    ∀ (l : List Nat) (acc : RunState × Bool) (x : Nat), x ∈ acc.1.skipped →
      x ∈ (l.foldl (succStep C task) acc).1.skipped := by
  intro l
  induction l with
  | nil => intro acc x h; simpa using h
  | cons y ys ih =>
    intro acc x h
    simp only [List.foldl_cons]
    exact ih (succStep C task acc y) x (succStep_skipped_mono C task acc y x h)

theorem foldl_succStep_limit_skips (C : Ctx) (task next : Nat) (L : List LimitItem)
    (hL : C.env.limitOf task = some L)
    (hn : C.attrs.nameOf next ∉ L.map (limitItemName C.attrs)) :
    ∀ (l : List Nat) (acc : RunState × Bool), next ∈ l →
      next ∈ (l.foldl (succStep C task) acc).1.skipped := by
  intro l
  induction l with
  | nil => intro acc h; simp at h
  | cons y ys ih =>
    intro acc hmem
    simp only [List.foldl_cons]
    rcases List.mem_cons.mp hmem with hEq | htail
    · subst hEq
      exact foldl_succStep_skipped_mono C task ys (succStep C task acc next) next
        (succStep_skipped_super C task acc next next
          (limitApply_skips C task next acc.1 L hL hn))
    · exact ih (succStep C task acc y) htail

/-- C6: for a finished node whose result carries a limit list, processing
that node in the advance pass marks every direct successor whose name is
absent from the (normalised) limit list as Skipped — with no regard to the
successor's own readiness, task-list membership or dispatch state. -/
theorem C6_limit_skips_successor (C : Ctx) (task next : Nat) (st : RunState)
    (L : List LimitItem)
    (hres : hasResult st task = true) (hfin : C.env.fin st.time task = true)
    (hL : C.env.limitOf task = some L)
    (hn : C.attrs.nameOf next ∉ L.map (limitItemName C.attrs))
    (hsucc : next ∈ C.g.succs task) :
    ∃ st', taskStep C task st = some st' ∧ next ∈ st'.skipped := by
  simp only [taskStep]
  set stS := sampleSignal C st with hstS
  have hdisp : stS.dispatched = st.dispatched := by
    rw [hstS]; unfold sampleSignal; split <;> rfl
  have htime : stS.time = st.time := by
    rw [hstS]; unfold sampleSignal; split <;> rfl
  have hres' : hasResult stS task = true := by
    unfold hasResult at hres ⊢
    rw [hdisp]
    exact hres
  have hfin' : C.env.fin stS.time task = true := by rw [htime]; exact hfin
  rw [hres', hfin']
  simp only [if_true]
  have hsk : next ∈ (succFold C task stS).1.skipped :=
    foldl_succStep_limit_skips C task next L hL hn (C.g.succs task) (stS, true) hsucc
  by_cases hq : (succFold C task stS).2 = true
  · rw [if_pos hq]
    exact ⟨_, rfl, hsk⟩
  · rw [if_neg hq]
    exact ⟨_, rfl, hsk⟩

/-- Witness for C6 in the chain dag at the moment node 0 (whose result
carries the empty limit list) is observed finished: successor 1 gets marked
Skipped. -/
theorem C6_limit_skips_successor_witness :
    ∃ st', taskStep ctxChainLim 0 stC6 = some st' ∧ 1 ∈ st'.skipped :=
  C6_limit_skips_successor ctxChainLim 0 1 stC6 [] (by decide) rfl rfl (by decide) (by decide)

theorem sampleSignal_fields (C : Ctx) (st : RunState) :
    (sampleSignal C st).dispatched = st.dispatched ∧
    (sampleSignal C st).tasks = st.tasks ∧
    (sampleSignal C st).cleanup = st.cleanup ∧
    (sampleSignal C st).skipped = st.skipped ∧
    (sampleSignal C st).forgotten = st.forgotten ∧
    (sampleSignal C st).time = st.time := by
  unfold sampleSignal
  split <;> simp

theorem readResultData_sample (C : Ctx) (st : RunState) :
    readResultData C (sampleSignal C st) = readResultData C st := by
  funext pre
  unfold readResultData hasResult
  rw [(sampleSignal_fields C st).1, (sampleSignal_fields C st).2.2.2.2.2]

theorem limitApply_none (C : Ctx) (task next : Nat) (st : RunState)
    (h : C.env.limitOf task = none) : limitApply C task next st = st := by
  unfold limitApply
  simp [h]

/-- C3 (amended): a node all of whose ready predecessors are Skipped with
propagate_skip does become Skipped at the moment a finished predecessor's
successor scan appends it, but the skip flag does not suppress submission:
the dispatch branch of the advance pass never consults is_skipped, so the
node is still submitted once its turn comes. -/
theorem C3_skip_propagates_but_still_dispatches :
    (∀ (C : Ctx) (task : Nat) (acc : RunState × Bool) (next : Nat),
      C.env.limitOf task = none →
      (next ∈ acc.1.tasks || hasResult acc.1 next) = false →
      readyCheck C acc.1 next = true →
      allSkippedProp C acc.1 next = true →
      next ∈ (succStep C task acc next).1.skipped) ∧
    (∀ (C : Ctx) (task : Nat) (st : RunState) (ds : List Dataset),
      task ∈ st.skipped →
      hasResult st task = false →
      st.stopped = false →
      C.env.sig st.samples = false →
      (C.g.preds task).isEmpty = false →
      buildInput C.slots C.attrs (readResultData C st) task (C.g.preds task) = some ds →
      ∃ st', taskStep C task st = some st' ∧ task ∈ st'.dispatched) := by
  constructor
  · intro C task acc next hlim hmem hready hprop
    simp only [succStep]
    rw [limitApply_none C task next acc.1 hlim]
    rw [hmem]
    simp only [Bool.false_eq_true, if_false]
    rw [hready]
    simp only [if_true]
    rw [hprop]
    simp only [if_true]
    have hs := skipNode_mem next acc.1
    by_cases h4 : (skipNode next acc.1).stopped = true
    · rw [if_pos h4]
      exact hs
    · rw [if_neg h4]
      exact hs
  · intro C task st ds hskip hres hstop hsig hpre hbi
    simp only [taskStep]
    have hsample : sampleSignal C st =
        { st with stopped := C.env.sig st.samples, samples := st.samples + 1 } := by
      unfold sampleSignal
      rw [hstop]
      simp
    have hres2 : hasResult (sampleSignal C st) task = false := by
      unfold hasResult
      rw [(sampleSignal_fields C st).1]
      exact hres
    rw [hres2]
    simp only [Bool.false_eq_true, if_false]
    rw [hpre]
    simp only [Bool.false_eq_true, if_false]
    rw [readResultData_sample C st, hbi]
    have hstop2 : (sampleSignal C st).stopped = false := by
      rw [hsample, hsig]
    rw [hstop2]
    simp only [Bool.false_eq_true, if_false]
    refine ⟨_, rfl, ?_⟩
    unfold dispatchNode
    simp

/-- Witness for the amended C3 in the chain dag: in state stC3a node 2 (all
predecessors skipped with propagate_skip) gets marked Skipped by the
successor scan of the finished node 1, and in state stC3b the skipped node 2
is nonetheless dispatched by its task step. -/
theorem C3_skip_propagates_but_still_dispatches_witness :
    2 ∈ (succStep ctxChainLim 1 (stC3a, true) 2).1.skipped ∧
    (∃ st', taskStep ctxChainLim 2 stC3b = some st' ∧ 2 ∈ st'.dispatched) :=
  ⟨C3_skip_propagates_but_still_dispatches.1 ctxChainLim 1 (stC3a, true) 2 rfl
      (by decide) (by decide) (by decide),
   C3_skip_propagates_but_still_dispatches.2 ctxChainLim 2 stC3b
      [{ dsName := "1", payload := 0, aliases := none }]
      (by decide) (by decide) rfl rfl (by decide) (by decide)⟩

/-!  Well-formedness of define-produced graphs (edge endpoints are vertices
and the vertex list is duplicate-free), needed for the run-loop theorem. -/

theorem addNode_mem_sub (g : Graph) (n x : Nat) (h : x ∈ g.nodes) :
    x ∈ (g.addNode n).nodes := by
  unfold Graph.addNode
  by_cases hm : n ∈ g.nodes
  · simpa [hm]
  · simp only [hm, if_false]
    exact List.mem_append_left _ h

theorem addNode_self_mem (g : Graph) (n : Nat) : n ∈ (g.addNode n).nodes := by
  unfold Graph.addNode
  by_cases hm : n ∈ g.nodes
  · simpa [hm]
  · simp [hm]

theorem addNode_edges (g : Graph) (n : Nat) : (g.addNode n).edges = g.edges := by
  unfold Graph.addNode
  by_cases hm : n ∈ g.nodes
  · simp [hm]
  · simp [hm]

theorem addNode_WF (g : Graph) (n : Nat) (h : GraphWF g) : GraphWF (g.addNode n) := by
  obtain ⟨he, hn⟩ := h
  constructor
  · intro e hme
    rw [addNode_edges] at hme
    exact ⟨addNode_mem_sub g n _ (he e hme).1, addNode_mem_sub g n _ (he e hme).2⟩
  · unfold Graph.addNode
    by_cases hm : n ∈ g.nodes
    · simpa [hm]
    · simp only [hm, if_false]
      exact List.Nodup.append hn (List.nodup_singleton n)
        (by simpa [List.disjoint_singleton] using hm)

theorem addEdge_mem_sub (g : Graph) (a b x : Nat) (h : x ∈ g.nodes) :
    x ∈ (g.addEdge a b).nodes := by
  unfold Graph.addEdge
  have h2 := addNode_mem_sub (g.addNode a) b x (addNode_mem_sub g a x h)
  by_cases hm : (a, b) ∈ ((g.addNode a).addNode b).edges
  · simpa [hm]
  · simpa [hm]

theorem addEdge_WF (g : Graph) (a b : Nat) (h : GraphWF g) : GraphWF (g.addEdge a b) := by
  have h2 := addNode_WF (g.addNode a) b (addNode_WF g a h)
  have hma : a ∈ ((g.addNode a).addNode b).nodes :=
    addNode_mem_sub (g.addNode a) b a (addNode_self_mem g a)
  have hmb : b ∈ ((g.addNode a).addNode b).nodes := addNode_self_mem (g.addNode a) b
  unfold Graph.addEdge
  by_cases hm : (a, b) ∈ ((g.addNode a).addNode b).edges
  · simpa [hm]
  · simp only [hm, if_false]
    obtain ⟨he2, hn2⟩ := h2
    constructor
    · intro e hme
      simp only [List.mem_append, List.mem_singleton] at hme
      rcases hme with hme | hme
      · exact he2 e hme
      · subst hme
        exact ⟨hma, hmb⟩
    · exact hn2

theorem addEdgesFrom_WF (parent : Nat) :
    ∀ (cs : List Nat) (g : Graph), GraphWF g → GraphWF (addEdgesFrom parent g cs) := by
  intro cs
  induction cs with
  | nil => intro g h; exact h
  | cons c t ih =>
    intro g h
    exact ih (g.addEdge parent c) (addEdge_WF g parent c h)

theorem dictFold_WF (parent : Nat) :
    ∀ (cs : List (Nat × Option String)) (g : Graph) (slots : SlotMap), GraphWF g →
      GraphWF (cs.foldl (dictStep parent) (g, slots)).1 := by
  intro cs
  induction cs with
  | nil => intro g slots h; exact h
  | cons cd t ih =>
    intro g slots h
    simp only [List.foldl_cons]
    have hstep : dictStep parent (g, slots) cd =
        (g.addEdge parent cd.1, (dictStep parent (g, slots) cd).2) :=
      Prod.ext (dictStep_graph parent (g, slots) cd) rfl
    rw [hstep]
    exact ih (g.addEdge parent cd.1) _ (addEdge_WF g parent cd.1 h)

theorem defineStep_WF (e : Nat × ChildSpec) (g : Graph) (slots : SlotMap) (h : GraphWF g) :
    GraphWF (defineStep (g, slots) e).1 := by
  obtain ⟨parent, spec⟩ := e
  cases spec with
  | noneSpec => exact addNode_WF g parent h
  | single c => exact addEdge_WF g parent c h
  | listSpec cs =>
    by_cases hemp : cs.isEmpty
    · simp only [defineStep, hemp, if_true]
      exact addNode_WF g parent h
    · simp only [defineStep, hemp, Bool.false_eq_true, if_false]
      exact addEdgesFrom_WF parent cs g h
  | dictSpec cs =>
    by_cases hemp : cs.isEmpty
    · simp only [defineStep, hemp, if_true]
      exact addNode_WF g parent h
    · simp only [defineStep, hemp, Bool.false_eq_true, if_false]
      exact dictFold_WF parent cs g slots h

theorem schemaFold_WF :
    ∀ (schema : Schema) (g : Graph) (slots : SlotMap), GraphWF g →
      GraphWF (schema.foldl defineStep (g, slots)).1 := by
  intro schema
  induction schema with
  | nil => intro g slots h; exact h
  | cons e t ih =>
    intro g slots h
    simp only [List.foldl_cons]
    have : defineStep (g, slots) e =
        ((defineStep (g, slots) e).1, (defineStep (g, slots) e).2) := rfl
    rw [this]
    exact ih _ _ (defineStep_WF e g slots h)

theorem emptyGraph_WF : GraphWF Graph.empty :=
  ⟨fun e he => absurd he (List.not_mem_nil e), List.nodup_nil⟩

theorem define_WF (d : DagS) (schema : Schema) : GraphWF (d.define schema).graph :=
  schemaFold_WF schema Graph.empty d.slots emptyGraph_WF

/-!  Conversions between the Bool-valued checks of the code and the Prop
forms used in the invariants. -/

theorem hasResult_iff (st : RunState) (n : Nat) :
    hasResult st n = true ↔ n ∈ st.dispatched := by
  unfold hasResult
  simp

theorem readyCheck_iff (C : Ctx) (st : RunState) (next : Nat) :
    readyCheck C st next = true ↔
      ∀ p ∈ C.g.preds next,
        (p ∈ st.dispatched ∧ C.env.fin st.time p = true) ∨ p ∈ st.skipped := by
  unfold readyCheck isFinishedB hasResult
  simp [List.all_eq_true, Bool.or_eq_true, Bool.and_eq_true]

theorem cleanupQualifies_iff (C : Ctx) (st : RunState) (task : Nat) :
    cleanupQualifies C st task = true ↔ ∀ s ∈ C.g.succs task, s ∈ st.dispatched := by
  unfold cleanupQualifies hasResult
  simp [List.all_eq_true]

/-!  Monotonicity and congruence of the invariants. -/

theorem InvD_transport (C : Ctx) (st st' : RunState)
    (hd : ∀ x ∈ st.dispatched, x ∈ st'.dispatched)
    (hs : ∀ x ∈ st.skipped, x ∈ st'.skipped)
    (hself : ∀ n ∈ st'.dispatched, n ∈ st.dispatched)
    (ht : st'.time = st.time)
    (h : InvD C st) : InvD C st' := by
  intro n hn p hp
  rcases h n (hself n hn) p hp with ⟨h1, h2⟩ | h1
  · exact Or.inl ⟨hd p h1, by rw [ht]; exact h2⟩
  · exact Or.inr (hs p h1)

theorem InvR_transport (C : Ctx) (st st' : RunState)
    (htk : ∀ x ∈ st'.tasks, x ∈ st.tasks)
    (hd : ∀ x ∈ st.dispatched, x ∈ st'.dispatched)
    (hs : ∀ x ∈ st.skipped, x ∈ st'.skipped)
    (ht : st'.time = st.time)
    (h : InvR C st) : InvR C st' := by
  intro n hn
  rcases h n (htk n hn) with h1 | h1 | h1
  · exact Or.inl (hd n h1)
  · exact Or.inr (Or.inl h1)
  · refine Or.inr (Or.inr ?_)
    intro p hp
    rcases h1 p hp with ⟨ha, hb⟩ | ha
    · exact Or.inl ⟨hd p ha, by rw [ht]; exact hb⟩
    · exact Or.inr (hs p ha)

theorem InvK_mono (C : Ctx) (st st' : RunState)
    (htk : ∀ x ∈ st.tasks, x ∈ st'.tasks)
    (hc : ∀ x ∈ st.cleanup, x ∈ st'.cleanup)
    (hd : st'.dispatched = st.dispatched)
    (h : InvK C st) : InvK C st' := by
  intro n hn
  rcases h n hn with h1 | h1 | ⟨p, hpe, h1 | h1 | h1⟩
  · exact Or.inl (htk n h1)
  · exact Or.inr (Or.inl (by rw [hd]; exact h1))
  · exact Or.inr (Or.inr ⟨p, hpe, Or.inl (htk p h1)⟩)
  · exact Or.inr (Or.inr ⟨p, hpe, Or.inr (Or.inl (hc p h1))⟩)
  · exact Or.inr (Or.inr ⟨p, hpe, Or.inr (Or.inr (by rw [hd]; exact h1))⟩)

/-- InvK survives the dispatch of a node that stays on the task list. -/
theorem InvK_dispatch (C : Ctx) (st : RunState) (task : Nat)
    (htask : task ∈ st.tasks) (h : InvK C st) : InvK C (dispatchNode task st) := by
  intro n hn
  rcases h n hn with h1 | h1 | ⟨p, hpe, h1 | h1 | h1⟩
  · exact Or.inl h1
  · exact Or.inr (Or.inl (by unfold dispatchNode; simp; exact Or.inl h1))
  · exact Or.inr (Or.inr ⟨p, hpe, Or.inl h1⟩)
  · exact Or.inr (Or.inr ⟨p, hpe, Or.inr (Or.inl h1)⟩)
  · by_cases hp : p = task
    · subst hp
      exact Or.inr (Or.inr ⟨p, hpe, Or.inl htask⟩)
    · refine Or.inr (Or.inr ⟨p, hpe, Or.inr (Or.inr ?_)⟩)
      unfold dispatchNode
      simp only [List.mem_append, List.mem_singleton]
      rintro (hmem | hmem)
      · exact h1 hmem
      · exact hp hmem

/-- InvK survives moving a dispatched node from the task list to the cleanup
list. -/
theorem InvK_move (C : Ctx) (st : RunState) (task : Nat)
    (hdisp : task ∈ st.dispatched) (h : InvK C st) :
    InvK C { st with cleanup := st.cleanup ++ [task], tasks := st.tasks.erase task } := by
  intro n hn
  rcases h n hn with h1 | h1 | ⟨p, hpe, h1 | h1 | h1⟩
  · by_cases hnt : n = task
    · subst hnt
      exact Or.inr (Or.inl hdisp)
    · exact Or.inl ((List.mem_erase_of_ne hnt).mpr h1)
  · exact Or.inr (Or.inl h1)
  · by_cases hpt : p = task
    · subst hpt
      exact Or.inr (Or.inr ⟨p, hpe, Or.inr (Or.inl (by simp))⟩)
    · exact Or.inr (Or.inr ⟨p, hpe, Or.inl ((List.mem_erase_of_ne hpt).mpr h1)⟩)
  · exact Or.inr (Or.inr ⟨p, hpe, Or.inr (Or.inl (by simp [h1]))⟩)
  · exact Or.inr (Or.inr ⟨p, hpe, Or.inr (Or.inr h1)⟩)

/-- InvK survives removing a node from the cleanup list once all its
successors are dispatched. -/
theorem InvK_cleanupRemove (C : Ctx) (st : RunState) (task : Nat)
    (hq : cleanupQualifies C st task = true) (forg : List Nat) (h : InvK C st) :
    InvK C { st with forgotten := forg, cleanup := st.cleanup.erase task } := by
  intro n hn
  rcases h n hn with h1 | h1 | ⟨p, hpe, h1 | h1 | h1⟩
  · exact Or.inl h1
  · exact Or.inr (Or.inl h1)
  · exact Or.inr (Or.inr ⟨p, hpe, Or.inl h1⟩)
  · by_cases hpt : p = task
    · subst hpt
      have hsucc : n ∈ C.g.succs p := (mem_succs_iff C.g p n).mpr hpe
      exact Or.inr (Or.inl ((cleanupQualifies_iff C st p).mp hq n hsucc))
    · exact Or.inr (Or.inr ⟨p, hpe, Or.inr (Or.inl ((List.mem_erase_of_ne hpt).mpr h1))⟩)
  · exact Or.inr (Or.inr ⟨p, hpe, Or.inr (Or.inr h1)⟩)

/-- The invariant survives any state change that keeps the task list, the
cleanup list, the dispatch log and the clock, and only grows the skip set. -/
theorem Inv_skipGrow (C : Ctx) (st st' : RunState)
    (hd : st'.dispatched = st.dispatched)
    (htk : st'.tasks = st.tasks)
    (hc : st'.cleanup = st.cleanup)
    (ht : st'.time = st.time)
    (hs : ∀ x ∈ st.skipped, x ∈ st'.skipped)
    (h : Inv C st) : Inv C st' := by
  obtain ⟨hND, hNT, hD, hR, hK⟩ := h
  refine ⟨by rw [hd]; exact hND, by rw [htk]; exact hNT, ?_, ?_, ?_⟩
  · exact InvD_transport C st st' (fun x hx => by rw [hd]; exact hx) hs
      (fun n hn => by rw [hd] at hn; exact hn) ht hD
  · exact InvR_transport C st st' (fun x hx => by rw [htk] at hx; exact hx)
      (fun x hx => by rw [hd]; exact hx) hs ht hR
  · exact InvK_mono C st st' (fun x hx => by rw [htk]; exact hx)
      (fun x hx => by rw [hc]; exact hx) hd hK

/-- The invariant survives appending a not-yet-listed node whose
predecessors are all finished or skipped. -/
theorem Inv_taskAppend (C : Ctx) (st : RunState) (next : Nat)
    (hnt : next ∉ st.tasks)
    (hready : ∀ p ∈ C.g.preds next,
      (p ∈ st.dispatched ∧ C.env.fin st.time p = true) ∨ p ∈ st.skipped)
    (h : Inv C st) : Inv C { st with tasks := st.tasks ++ [next] } := by
  obtain ⟨hND, hNT, hD, hR, hK⟩ := h
  refine ⟨hND, ?_, hD, ?_, ?_⟩
  · exact List.Nodup.append hNT (List.nodup_singleton next)
      (by simpa [List.disjoint_singleton] using hnt)
  · intro n hn
    simp only [List.mem_append, List.mem_singleton] at hn
    rcases hn with hn | hn
    · exact hR n hn
    · subst hn
      exact Or.inr (Or.inr hready)
  · exact InvK_mono C st _ (fun x hx => List.mem_append_left _ hx) (fun x hx => hx) rfl hK

theorem succStep_inv (C : Ctx) (task : Nat) (acc : RunState × Bool) (next : Nat)
    (hInv : Inv C acc.1) : Inv C (succStep C task acc next).1 := by
  have hlf := limitApply_frame C task next acc.1
  have hInvL : Inv C (limitApply C task next acc.1) :=
    Inv_skipGrow C acc.1 _ hlf.1 hlf.2.2.2.2.2 hlf.2.2.2.2.1 hlf.2.2.2.1
      (fun x hx => limitApply_skipped_mono C task next x acc.1 hx) hInv
  unfold succStep
  by_cases h1 : next ∈ (limitApply C task next acc.1).tasks ||
      hasResult (limitApply C task next acc.1) next
  · simp only [h1, if_true]
    exact hInvL
  · have h1' : next ∉ (limitApply C task next acc.1).tasks := by
      intro hmem
      apply h1
      simp [hmem]
    simp only [h1, Bool.false_eq_true, if_false]
    by_cases h2 : readyCheck C (limitApply C task next acc.1) next
    · simp only [h2, if_true]
      have hreadyL := (readyCheck_iff C (limitApply C task next acc.1) next).mp h2
      by_cases h3 : allSkippedProp C (limitApply C task next acc.1) next
      · simp only [h3, if_true]
        have hsf := skipNode_frame next (limitApply C task next acc.1)
        have hInvP : Inv C (skipNode next (limitApply C task next acc.1)) :=
          Inv_skipGrow C _ _ hsf.1 hsf.2.2.2.2.2 hsf.2.2.2.2.1 hsf.2.2.2.1
            (fun x hx => skipNode_skipped_mono next x _ hx) hInvL
        by_cases h4 : (skipNode next (limitApply C task next acc.1)).stopped = true
        · rw [if_pos h4]
          exact hInvP
        · rw [if_neg h4]
          refine Inv_taskAppend C _ next ?_ ?_ hInvP
          · rw [hsf.2.2.2.2.2]
            exact h1'
          · intro p hp
            rcases hreadyL p hp with ⟨ha, hb⟩ | ha
            · exact Or.inl ⟨by rw [hsf.1]; exact ha, by rw [hsf.2.2.2.1]; exact hb⟩
            · exact Or.inr (skipNode_skipped_mono next p _ ha)
      · simp only [h3, Bool.false_eq_true, if_false]
        by_cases h4 : (limitApply C task next acc.1).stopped = true
        · rw [if_pos h4]
          exact hInvL
        · rw [if_neg h4]
          exact Inv_taskAppend C _ next h1' hreadyL hInvL
    · simp only [h2, Bool.false_eq_true, if_false]
      exact hInvL

theorem succFold_inv (C : Ctx) (task : Nat) :
    ∀ (l : List Nat) (acc : RunState × Bool), Inv C acc.1 →
      Inv C ((l.foldl (succStep C task) acc)).1 := by
  intro l
  induction l with
  | nil => intro acc h; exact h
  | cons x xs ih =>
    intro acc h
    simp only [List.foldl_cons]
    exact ih (succStep C task acc x) (succStep_inv C task acc x h)

theorem succStep_tasks_mono (C : Ctx) (task : Nat) (acc : RunState × Bool) (next x : Nat)
    (h : x ∈ acc.1.tasks) : x ∈ (succStep C task acc next).1.tasks := by
  have hlf := limitApply_frame C task next acc.1
  have hL : x ∈ (limitApply C task next acc.1).tasks := by
    rw [hlf.2.2.2.2.2]
    exact h
  unfold succStep
  by_cases h1 : next ∈ (limitApply C task next acc.1).tasks ||
      hasResult (limitApply C task next acc.1) next
  · simp only [h1, if_true]
    exact hL
  · simp only [h1, Bool.false_eq_true, if_false]
    by_cases h2 : readyCheck C (limitApply C task next acc.1) next
    · simp only [h2, if_true]
      have hsf := skipNode_frame next (limitApply C task next acc.1)
      by_cases h3 : allSkippedProp C (limitApply C task next acc.1) next
      · simp only [h3, if_true]
        have hP : x ∈ (skipNode next (limitApply C task next acc.1)).tasks := by
          rw [hsf.2.2.2.2.2]
          exact hL
        by_cases h4 : (skipNode next (limitApply C task next acc.1)).stopped = true
        · rw [if_pos h4]
          exact hP
        · rw [if_neg h4]
          exact List.mem_append_left _ hP
      · simp only [h3, Bool.false_eq_true, if_false]
        by_cases h4 : (limitApply C task next acc.1).stopped = true
        · rw [if_pos h4]
          exact hL
        · rw [if_neg h4]
          exact List.mem_append_left _ hL
    · simp only [h2, Bool.false_eq_true, if_false]
      exact hL

theorem succFold_tasks_mono (C : Ctx) (task : Nat) :
    ∀ (l : List Nat) (acc : RunState × Bool) (x : Nat), x ∈ acc.1.tasks →
      x ∈ ((l.foldl (succStep C task) acc)).1.tasks := by
  intro l
  induction l with
  | nil => intro acc x h; exact h
  | cons y ys ih =>
    intro acc x h
    simp only [List.foldl_cons]
    exact ih (succStep C task acc y) x (succStep_tasks_mono C task acc y x h)

/-- The invariant survives dispatching a node of the task list that has no
celery result yet. -/
theorem Inv_dispatch (C : Ctx) (st : RunState) (task : Nat)
    (htask : task ∈ st.tasks) (hnd : task ∉ st.dispatched) (h : Inv C st) :
    Inv C (dispatchNode task st) := by
  obtain ⟨hND, hNT, hD, hR, hK⟩ := h
  refine ⟨?_, hNT, ?_, ?_, ?_⟩
  · exact List.Nodup.append hND (List.nodup_singleton task)
      (by simpa [List.disjoint_singleton] using hnd)
  · intro n hn p hp
    have hn' : n ∈ st.dispatched ++ [task] := hn
    simp only [List.mem_append, List.mem_singleton] at hn'
    rcases hn' with hn' | hn'
    · rcases hD n hn' p hp with ⟨ha, hb⟩ | ha
      · exact Or.inl ⟨List.mem_append_left _ ha, hb⟩
      · exact Or.inr ha
    · subst hn'
      rcases hR n htask with hd1 | hd1 | hd1
      · exact absurd hd1 hnd
      · rw [hd1] at hp
        cases hp
      · rcases hd1 p hp with ⟨ha, hb⟩ | ha
        · exact Or.inl ⟨List.mem_append_left _ ha, hb⟩
        · exact Or.inr ha
  · intro n hn
    rcases hR n hn with h1 | h1 | h1
    · exact Or.inl (List.mem_append_left _ h1)
    · exact Or.inr (Or.inl h1)
    · refine Or.inr (Or.inr ?_)
      intro p hp
      rcases h1 p hp with ⟨ha, hb⟩ | ha
      · exact Or.inl ⟨List.mem_append_left _ ha, hb⟩
      · exact Or.inr ha
  · exact InvK_dispatch C st task htask hK

theorem taskStep_inv (C : Ctx) (task : Nat) (st st' : RunState)
    (htask : task ∈ st.tasks)
    (hInv : Inv C st) (h : taskStep C task st = some st') : Inv C st' := by
  have hsf := sampleSignal_fields C st
  have hInvS : Inv C (sampleSignal C st) :=
    Inv_skipGrow C st _ hsf.1 hsf.2.1 hsf.2.2.1 hsf.2.2.2.2.2
      (fun x hx => by rw [hsf.2.2.2.1]; exact hx) hInv
  have htaskS : task ∈ (sampleSignal C st).tasks := by
    rw [hsf.2.1]
    exact htask
  simp only [taskStep] at h
  by_cases hr : hasResult (sampleSignal C st) task
  · rw [hr] at h
    simp only [if_true] at h
    by_cases hf : C.env.fin (sampleSignal C st).time task
    · rw [hf] at h
      simp only [if_true] at h
      have hInv2 : Inv C (succFold C task (sampleSignal C st)).1 :=
        succFold_inv C task (C.g.succs task) (sampleSignal C st, true) hInvS
      have hdisp2 : (succFold C task (sampleSignal C st)).1.dispatched =
          (sampleSignal C st).dispatched := (succFold_frame C task (sampleSignal C st)).1
      rcases hfold : succFold C task (sampleSignal C st) with ⟨st2, allQ⟩
      rw [hfold] at h hInv2 hdisp2
      by_cases hq : allQ = true
      · rw [if_pos hq] at h
        simp only [Option.some.injEq] at h
        subst h
        obtain ⟨hND2, hNT2, hD2, hR2, hK2⟩ := hInv2
        have hdispTask : task ∈ st2.dispatched := by
          rw [hdisp2]
          exact (hasResult_iff _ _).mp hr
        refine ⟨hND2, hNT2.erase task, hD2, ?_, InvK_move C st2 task hdispTask hK2⟩
        intro n hn
        exact hR2 n (List.mem_of_mem_erase hn)
      · rw [if_neg hq] at h
        simp only [Option.some.injEq] at h
        subst h
        exact hInv2
    · have hf' : C.env.fin (sampleSignal C st).time task = false := by
        simpa using hf
      rw [hf'] at h
      simp only [Bool.false_eq_true, if_false, Option.some.injEq] at h
      subst h
      exact hInvS
  · have hr' : hasResult (sampleSignal C st) task = false := by
      simpa using hr
    rw [hr'] at h
    simp only [Bool.false_eq_true, if_false] at h
    have hndS : task ∉ (sampleSignal C st).dispatched := by
      intro hmem
      have hmm := (hasResult_iff (sampleSignal C st) task).mpr hmem
      rw [hmm] at hr'
      cases hr'
    by_cases hp : (C.g.preds task).isEmpty
    · rw [hp] at h
      simp only [if_true] at h
      by_cases hst : (sampleSignal C st).stopped = true
      · rw [if_pos hst] at h
        simp only [Option.some.injEq] at h
        subst h
        exact hInvS
      · rw [if_neg hst] at h
        simp only [Option.some.injEq] at h
        subst h
        exact Inv_dispatch C _ task htaskS hndS hInvS
    · have hp' : (C.g.preds task).isEmpty = false := by simpa using hp
      rw [hp'] at h
      simp only [Bool.false_eq_true, if_false] at h
      rcases hb : buildInput C.slots C.attrs (readResultData C (sampleSignal C st)) task
          (C.g.preds task) with _ | ds
      · rw [hb] at h
        cases h
      · rw [hb] at h
        by_cases hst : (sampleSignal C st).stopped = true
        · rw [if_pos hst] at h
          simp only [Option.some.injEq] at h
          subst h
          exact hInvS
        · rw [if_neg hst] at h
          simp only [Option.some.injEq] at h
          subst h
          exact Inv_dispatch C _ task htaskS hndS hInvS

theorem taskStep_tasks_super (C : Ctx) (task : Nat) (st st' : RunState)
    (h : taskStep C task st = some st') :
    ∀ x ∈ st.tasks, x ≠ task → x ∈ st'.tasks := by
  intro x hx hne
  have hsf := sampleSignal_fields C st
  have hxS : x ∈ (sampleSignal C st).tasks := by
    rw [hsf.2.1]
    exact hx
  simp only [taskStep] at h
  by_cases hr : hasResult (sampleSignal C st) task
  · rw [hr] at h
    simp only [if_true] at h
    by_cases hf : C.env.fin (sampleSignal C st).time task
    · rw [hf] at h
      simp only [if_true] at h
      have hx2 : x ∈ (succFold C task (sampleSignal C st)).1.tasks :=
        succFold_tasks_mono C task (C.g.succs task) (sampleSignal C st, true) x hxS
      rcases hfold : succFold C task (sampleSignal C st) with ⟨st2, allQ⟩
      rw [hfold] at h hx2
      by_cases hq : allQ = true
      · rw [if_pos hq] at h
        simp only [Option.some.injEq] at h
        subst h
        exact (List.mem_erase_of_ne hne).mpr hx2
      · rw [if_neg hq] at h
        simp only [Option.some.injEq] at h
        subst h
        exact hx2
    · have hf' : C.env.fin (sampleSignal C st).time task = false := by simpa using hf
      rw [hf'] at h
      simp only [Bool.false_eq_true, if_false, Option.some.injEq] at h
      subst h
      exact hxS
  · have hr' : hasResult (sampleSignal C st) task = false := by simpa using hr
    rw [hr'] at h
    simp only [Bool.false_eq_true, if_false] at h
    by_cases hp : (C.g.preds task).isEmpty
    · rw [hp] at h
      simp only [if_true] at h
      by_cases hst : (sampleSignal C st).stopped = true
      · rw [if_pos hst] at h
        simp only [Option.some.injEq] at h
        subst h
        exact hxS
      · rw [if_neg hst] at h
        simp only [Option.some.injEq] at h
        subst h
        exact hxS
    · have hp' : (C.g.preds task).isEmpty = false := by simpa using hp
      rw [hp'] at h
      simp only [Bool.false_eq_true, if_false] at h
      rcases hb : buildInput C.slots C.attrs (readResultData C (sampleSignal C st)) task
          (C.g.preds task) with _ | ds
      · rw [hb] at h
        cases h
      · rw [hb] at h
        by_cases hst : (sampleSignal C st).stopped = true
        · rw [if_pos hst] at h
          simp only [Option.some.injEq] at h
          subst h
          exact hxS
        · rw [if_neg hst] at h
          simp only [Option.some.injEq] at h
          subst h
          exact hxS

theorem advanceGo_inv (C : Ctx) : ∀ (l : List Nat) (st st' : RunState),
    (∀ x ∈ l, x ∈ st.tasks) → l.Nodup → Inv C st →
    advanceGo C l st = some st' → Inv C st' := by
  intro l
  induction l with
  | nil =>
    intro st st' _ _ hInv h
    simp only [advanceGo, Option.some.injEq] at h
    subst h
    exact hInv
  | cons task rest ih =>
    intro st st' hsub hnd hInv h
    simp only [advanceGo] at h
    rcases hts : taskStep C task st with _ | st1
    · rw [hts] at h
      cases h
    · rw [hts] at h
      have htask : task ∈ st.tasks := hsub task (List.mem_cons_self _ _)
      have hInv1 := taskStep_inv C task st st1 htask hInv hts
      have hsub1 : ∀ x ∈ rest, x ∈ st1.tasks := by
        intro x hx
        have hxt := hsub x (List.mem_cons_of_mem _ hx)
        have hne : x ≠ task := by
          intro he
          subst he
          exact (List.nodup_cons.mp hnd).1 hx
        exact taskStep_tasks_super C task st st1 hts x hxt hne
      exact ih st1 st' hsub1 (List.nodup_cons.mp hnd).2 hInv1 h

theorem cleanupGo_InvK (C : Ctx) : ∀ (bound i : Nat) (st : RunState),
    InvK C st → InvK C (cleanupGo C bound i st) := by
  intro bound
  induction bound with
  | zero => intro i st h; exact h
  | succ bound ih =>
    intro i st h
    rw [cleanupGo]
    by_cases hlt : i < st.cleanup.length
    · rw [dif_pos hlt]
      by_cases hq : cleanupQualifies C st (st.cleanup.get ⟨i, hlt⟩)
      · simp only [hq, if_true]
        by_cases hexp : C.cfg.resultExpiresZero
        · rw [if_pos hexp]
          exact ih (i + 1) _
            (InvK_cleanupRemove C st _ hq (st.forgotten ++ [st.cleanup.get ⟨i, hlt⟩]) h)
        · rw [if_neg hexp]
          exact ih (i + 1) _ (InvK_cleanupRemove C st _ hq st.forgotten h)
      · simp only [hq, Bool.false_eq_true, if_false]
        exact ih (i + 1) st h
    · rw [dif_neg hlt]
      exact h

theorem cleanupPass_inv (C : Ctx) (st : RunState) (h : Inv C st) : Inv C (cleanupPass C st) := by
  have hf := cleanupPass_fields C st
  obtain ⟨hND, hNT, hD, hR, hK⟩ := h
  refine ⟨by rw [hf.2.1]; exact hND, by rw [hf.1]; exact hNT, ?_, ?_, ?_⟩
  · exact InvD_transport C st _ (fun x hx => by rw [hf.2.1]; exact hx)
      (fun x hx => by rw [hf.2.2.1]; exact hx)
      (fun n hn => by rw [hf.2.1] at hn; exact hn) hf.2.2.2.2.2 hD
  · exact InvR_transport C st _ (fun x hx => by rw [hf.1] at hx; exact hx)
      (fun x hx => by rw [hf.2.1]; exact hx)
      (fun x hx => by rw [hf.2.2.1]; exact hx) hf.2.2.2.2.2 hR
  · exact cleanupGo_InvK C st.cleanup.length 0 st hK

theorem Inv_tick (C : Ctx) (st : RunState)
    (hmono : ∀ t n, C.env.fin t n = true → C.env.fin (t + 1) n = true)
    (h : Inv C st) : Inv C { st with time := st.time + 1 } := by
  obtain ⟨hND, hNT, hD, hR, hK⟩ := h
  refine ⟨hND, hNT, ?_, ?_, ?_⟩
  · intro n hn p hp
    rcases hD n hn p hp with ⟨ha, hb⟩ | ha
    · exact Or.inl ⟨ha, hmono _ _ hb⟩
    · exact Or.inr ha
  · intro n hn
    rcases hR n hn with h1 | h1 | h1
    · exact Or.inl h1
    · exact Or.inr (Or.inl h1)
    · refine Or.inr (Or.inr fun p hp => ?_)
      rcases h1 p hp with ⟨ha, hb⟩ | ha
      · exact Or.inl ⟨ha, hmono _ _ hb⟩
      · exact Or.inr ha
  · exact hK

theorem loopBody_inv (C : Ctx)
    (hmono : ∀ t n, C.env.fin t n = true → C.env.fin (t + 1) n = true)
    (st st' : RunState) (hInv : Inv C st) (h : loopBody C st = some st') : Inv C st' := by
  unfold loopBody advancePass at h
  have h1 : Inv C (cleanupPass C { st with time := st.time + 1 }) :=
    cleanupPass_inv C _ (Inv_tick C st hmono hInv)
  exact advanceGo_inv C _ _ st' (fun x hx => List.mem_reverse.mp hx)
    (List.nodup_reverse.mpr h1.2.1) h1 h

theorem runLoop_inv (C : Ctx)
    (hmono : ∀ t n, C.env.fin t n = true → C.env.fin (t + 1) n = true) :
    ∀ (fuel : Nat) (st st' : RunState), Inv C st →
      runLoop C fuel st = some st' → Inv C st' := by
  intro fuel
  induction fuel with
  | zero =>
    intro st st' hInv h
    simp only [runLoop, Option.some.injEq] at h
    subst h
    exact hInv
  | succ fuel ih =>
    intro st st' hInv h
    simp only [runLoop] at h
    by_cases hterm : (st.tasks.isEmpty && st.cleanup.isEmpty) = true
    · rw [hterm] at h
      simp only [if_true, Option.some.injEq] at h
      subst h
      exact hInv
    · have hterm' : (st.tasks.isEmpty && st.cleanup.isEmpty) = false := by simpa using hterm
      rw [hterm'] at h
      simp only [Bool.false_eq_true, if_false] at h
      rcases hb : loopBody C st with _ | st1
      · rw [hb] at h
        cases h
      · rw [hb] at h
        exact ih st1 st' (loopBody_inv C hmono st st1 hInv hb) h

theorem initState_inv (C : Ctx) (hwf : GraphWF C.g) : Inv C (initState C) := by
  refine ⟨List.nodup_nil, hwf.2.filter _, ?_, ?_, ?_⟩
  · intro n hn
    cases hn
  · intro n hn
    have hm := List.mem_filter.mp hn
    refine Or.inr (Or.inl ?_)
    simpa using hm.2
  · intro n hn
    by_cases hp : (C.g.preds n).isEmpty
    · exact Or.inl (List.mem_filter.mpr ⟨hn, hp⟩)
    · refine Or.inr (Or.inr ?_)
      have hne : C.g.preds n ≠ [] := by
        intro he
        rw [he] at hp
        exact hp rfl
      obtain ⟨p, hp2⟩ := List.exists_mem_of_ne_nil _ hne
      exact ⟨p, (mem_preds_iff C.g n p).mp hp2, Or.inr (Or.inr (List.not_mem_nil p))⟩

/-- At a state with both lists empty, every vertex of an acyclic
well-formed graph has been dispatched: the bookkeeping invariant leaves only
dispatched nodes or nodes with an undispatched predecessor, and peeling
performs the induction along the dependency depth. -/
theorem terminal_all_dispatched (C : Ctx) (hwf : GraphWF C.g)
    (hacyc : isAcyclic C.g = true) (st : RunState) (hK : InvK C st)
    (ht : st.tasks = []) (hc : st.cleanup = []) :
    ∀ n ∈ C.g.nodes, n ∈ st.dispatched := by
  have hK' : ∀ n ∈ C.g.nodes, n ∈ st.dispatched ∨
      ∃ p, (p, n) ∈ C.g.edges ∧ p ∉ st.dispatched := by
    intro n hn
    rcases hK n hn with h | h | ⟨p, hpe, h | h | h⟩
    · rw [ht] at h
      cases h
    · exact Or.inl h
    · rw [ht] at h
      cases h
    · rw [hc] at h
      cases h
    · exact Or.inr ⟨p, hpe, h⟩
  have hstep : ∀ k, ∀ n ∈ C.g.nodes, n ∉ peelIter C.g k → n ∈ st.dispatched := by
    intro k
    induction k with
    | zero =>
      intro n hn hnp
      exact absurd hn hnp
    | succ k ih =>
      intro n hn hnp
      by_cases hin : n ∈ peelIter C.g k
      · have hnopred : hasAlivePred C.g (peelIter C.g k) n = false := by
          by_contra hcon
          have hcon' : hasAlivePred C.g (peelIter C.g k) n = true := by
            simpa using hcon
          exact hnp (List.mem_filter.mpr ⟨hin, hcon'⟩)
        rcases hK' n hn with hd | ⟨p, hpe, hpd⟩
        · exact hd
        · have hpn : p ∈ C.g.nodes := (hwf.1 (p, n) hpe).1
          have hpalive : p ∉ peelIter C.g k := by
            intro hpa
            have hcon : hasAlivePred C.g (peelIter C.g k) n = true := by
              unfold hasAlivePred
              rw [List.any_eq_true]
              exact ⟨p, hpa, by simp [hpe]⟩
            rw [hcon] at hnopred
            cases hnopred
          exact absurd (ih p hpn hpalive) hpd
      · exact ih n hn hin
  intro n hn
  apply hstep C.g.nodes.length n hn
  intro hmem
  unfold isAcyclic at hacyc
  rw [List.isEmpty_iff] at hacyc
  rw [hacyc] at hmem
  cases hmem

/-!  Without result limits no skip flag can ever appear: the limit branch is
dead and the propagate branch needs an already-skipped predecessor. -/

theorem succStep_skipped_nil (C : Ctx) (task : Nat) (acc : RunState × Bool) (next : Nat)
    (hlim : C.env.limitOf task = none) (hedge : next ∈ C.g.succs task)
    (hs : acc.1.skipped = []) : (succStep C task acc next).1.skipped = [] := by
  have htaskpred : task ∈ C.g.preds next :=
    (mem_preds_iff C.g next task).mpr ((mem_succs_iff C.g task next).mp hedge)
  simp only [succStep]
  rw [limitApply_none C task next acc.1 hlim]
  by_cases h1 : next ∈ acc.1.tasks || hasResult acc.1 next
  · simp only [h1, if_true]
    exact hs
  · simp only [h1, Bool.false_eq_true, if_false]
    by_cases h2 : readyCheck C acc.1 next
    · simp only [h2, if_true]
      have h3 : allSkippedProp C acc.1 next = false := by
        by_contra hcon
        have hcon' : allSkippedProp C acc.1 next = true := by simpa using hcon
        have := List.all_eq_true.mp hcon' task htaskpred
        rw [hs] at this
        simp at this
      simp only [h3, Bool.false_eq_true, if_false]
      by_cases h4 : acc.1.stopped = true
      · rw [if_pos h4]
        exact hs
      · rw [if_neg h4]
        exact hs
    · simp only [h2, Bool.false_eq_true, if_false]
      exact hs

theorem succFold_skipped_nil (C : Ctx) (task : Nat)
    (hlim : C.env.limitOf task = none) :
    ∀ (l : List Nat) (acc : RunState × Bool), (∀ x ∈ l, x ∈ C.g.succs task) →
      acc.1.skipped = [] → ((l.foldl (succStep C task) acc)).1.skipped = [] := by
  intro l
  induction l with
  | nil => intro acc _ hs; exact hs
  | cons x xs ih =>
    intro acc hsub hs
    simp only [List.foldl_cons]
    exact ih (succStep C task acc x) (fun y hy => hsub y (List.mem_cons_of_mem _ hy))
      (succStep_skipped_nil C task acc x hlim (hsub x (List.mem_cons_self _ _)) hs)

theorem taskStep_skipped_nil (C : Ctx) (task : Nat) (st st' : RunState)
    (hlim : ∀ n, C.env.limitOf n = none)
    (h : taskStep C task st = some st') (hs : st.skipped = []) : st'.skipped = [] := by
  have hsf := sampleSignal_fields C st
  have hsS : (sampleSignal C st).skipped = [] := by
    rw [hsf.2.2.2.1]
    exact hs
  simp only [taskStep] at h
  by_cases hr : hasResult (sampleSignal C st) task
  · rw [hr] at h
    simp only [if_true] at h
    by_cases hf : C.env.fin (sampleSignal C st).time task
    · rw [hf] at h
      simp only [if_true] at h
      have hs2 : (succFold C task (sampleSignal C st)).1.skipped = [] :=
        succFold_skipped_nil C task (hlim task) (C.g.succs task)
          (sampleSignal C st, true) (fun x hx => hx) hsS
      rcases hfold : succFold C task (sampleSignal C st) with ⟨st2, allQ⟩
      rw [hfold] at h hs2
      by_cases hq : allQ = true
      · rw [if_pos hq] at h
        simp only [Option.some.injEq] at h
        subst h
        exact hs2
      · rw [if_neg hq] at h
        simp only [Option.some.injEq] at h
        subst h
        exact hs2
    · have hf' : C.env.fin (sampleSignal C st).time task = false := by simpa using hf
      rw [hf'] at h
      simp only [Bool.false_eq_true, if_false, Option.some.injEq] at h
      subst h
      exact hsS
  · have hr' : hasResult (sampleSignal C st) task = false := by simpa using hr
    rw [hr'] at h
    simp only [Bool.false_eq_true, if_false] at h
    by_cases hp : (C.g.preds task).isEmpty
    · rw [hp] at h
      simp only [if_true] at h
      by_cases hst : (sampleSignal C st).stopped = true
      · rw [if_pos hst] at h
        simp only [Option.some.injEq] at h
        subst h
        exact hsS
      · rw [if_neg hst] at h
        simp only [Option.some.injEq] at h
        subst h
        exact hsS
    · have hp' : (C.g.preds task).isEmpty = false := by simpa using hp
      rw [hp'] at h
      simp only [Bool.false_eq_true, if_false] at h
      rcases hb : buildInput C.slots C.attrs (readResultData C (sampleSignal C st)) task
          (C.g.preds task) with _ | ds
      · rw [hb] at h
        cases h
      · rw [hb] at h
        by_cases hst : (sampleSignal C st).stopped = true
        · rw [if_pos hst] at h
          simp only [Option.some.injEq] at h
          subst h
          exact hsS
        · rw [if_neg hst] at h
          simp only [Option.some.injEq] at h
          subst h
          exact hsS

theorem advanceGo_skipped_nil (C : Ctx) (hlim : ∀ n, C.env.limitOf n = none) :
    ∀ (l : List Nat) (st st' : RunState), st.skipped = [] →
      advanceGo C l st = some st' → st'.skipped = [] := by
  intro l
  induction l with
  | nil =>
    intro st st' hs h
    simp only [advanceGo, Option.some.injEq] at h
    subst h
    exact hs
  | cons task rest ih =>
    intro st st' hs h
    simp only [advanceGo] at h
    rcases hts : taskStep C task st with _ | st1
    · rw [hts] at h
      cases h
    · rw [hts] at h
      exact ih st1 st' (taskStep_skipped_nil C task st st1 hlim hts hs) h

theorem runLoop_skipped_nil (C : Ctx) (hlim : ∀ n, C.env.limitOf n = none) :
    ∀ (fuel : Nat) (st st' : RunState), st.skipped = [] →
      runLoop C fuel st = some st' → st'.skipped = [] := by
  intro fuel
  induction fuel with
  | zero =>
    intro st st' hs h
    simp only [runLoop, Option.some.injEq] at h
    subst h
    exact hs
  | succ fuel ih =>
    intro st st' hs h
    simp only [runLoop] at h
    by_cases hterm : (st.tasks.isEmpty && st.cleanup.isEmpty) = true
    · rw [hterm] at h
      simp only [if_true, Option.some.injEq] at h
      subst h
      exact hs
    · have hterm' : (st.tasks.isEmpty && st.cleanup.isEmpty) = false := by simpa using hterm
      rw [hterm'] at h
      simp only [Bool.false_eq_true, if_false] at h
      rcases hb : loopBody C st with _ | st1
      · rw [hb] at h
        cases h
      · rw [hb] at h
        have hs1 : st1.skipped = [] := by
          unfold loopBody advancePass at hb
          have hsc : (cleanupPass C { st with time := st.time + 1 }).skipped = [] := by
            rw [(cleanupPass_fields C _).2.2.1]
            exact hs
          exact advanceGo_skipped_nil C hlim _ _ st1 hsc hb
        exact ih st1 st' hs1 h

/-- C1: running any acyclic schema with no result limits in play (hence, as
also proved here, no skip flags ever arise) dispatches soundly: the submit
log never repeats a node, every dispatched node's predecessors are all
finished-or-skipped from the moment of its dispatch on (the finished state
of external jobs being monotone), and when the loop reaches its termination
condition (both lists empty) every vertex of the graph appears in the
submit log exactly once. -/
theorem C1_dispatch_exactly_once (d : DagS) (schema : Schema) (A : TaskAttrs) (env : Env)
    (cfg : Config) (fuel : Nat) (st : RunState)
    (hmono : ∀ t n, env.fin t n = true → env.fin (t + 1) n = true)
    (hlim : ∀ n, env.limitOf n = none)
    (hrun : runDag (d.define schema) A (some cfg) env fuel = Except.ok st) :
    st.skipped = [] ∧
    st.dispatched.Nodup ∧
    (∀ n ∈ st.dispatched, ∀ p ∈ (d.define schema).graph.preds n,
      (p ∈ st.dispatched ∧ env.fin st.time p = true) ∨ p ∈ st.skipped) ∧
    (st.tasks = [] → st.cleanup = [] →
      ∀ n ∈ (d.define schema).graph.nodes, st.dispatched.count n = 1) := by
  simp only [runDag] at hrun
  by_cases hacyc : isAcyclic (d.define schema).graph = true
  · rw [hacyc] at hrun
    simp only [Bool.not_true, Bool.false_eq_true, if_false] at hrun
    rcases hloop : runLoop
        { g := (d.define schema).graph, slots := (d.define schema).slots, attrs := A,
          env := env, cfg := cfg } fuel
        (initState
          { g := (d.define schema).graph, slots := (d.define schema).slots, attrs := A,
            env := env, cfg := cfg }) with _ | st0
    · rw [hloop] at hrun
      cases hrun
    · rw [hloop] at hrun
      simp only [Except.ok.injEq] at hrun
      subst hrun
      have hwf : GraphWF (d.define schema).graph := define_WF d schema
      have hInv0 := initState_inv
        { g := (d.define schema).graph, slots := (d.define schema).slots, attrs := A,
          env := env, cfg := cfg } hwf
      have hInvF := runLoop_inv
        { g := (d.define schema).graph, slots := (d.define schema).slots, attrs := A,
          env := env, cfg := cfg } hmono fuel _ st0 hInv0 hloop
      have hskip := runLoop_skipped_nil
        { g := (d.define schema).graph, slots := (d.define schema).slots, attrs := A,
          env := env, cfg := cfg } hlim fuel _ st0 rfl hloop
      refine ⟨hskip, hInvF.1, hInvF.2.2.1, ?_⟩
      intro ht hc n hn
      have hmem := terminal_all_dispatched
        { g := (d.define schema).graph, slots := (d.define schema).slots, attrs := A,
          env := env, cfg := cfg } hwf hacyc st0 hInvF.2.2.2.2 ht hc n hn
      exact List.count_eq_one_of_mem hInvF.1 hmem
  · have hacyc' : isAcyclic (d.define schema).graph = false := by simpa using hacyc
    rw [hacyc'] at hrun
    simp at hrun

/-- Witness for C1: the complete run of the chain 0 → 1 → 2 under a
limit-free environment with monotone job completion dispatches each of the
three nodes exactly once. -/
theorem C1_dispatch_exactly_once_witness :
    ∃ st, runDag (DagS.define (DagS.init "d" true)
          [(0, ChildSpec.single 1), (1, ChildSpec.single 2)]) attrsN (some cfg0) envPlain 10 =
        Except.ok st ∧
      st.skipped = [] ∧ st.dispatched.Nodup ∧ st.tasks = [] ∧ st.cleanup = [] ∧
      st.dispatched.count 0 = 1 ∧ st.dispatched.count 1 = 1 ∧ st.dispatched.count 2 = 1 := by
  have h := C1_dispatch_exactly_once (DagS.init "d" true)
    [(0, ChildSpec.single 1), (1, ChildSpec.single 2)] attrsN envPlain cfg0 10
    { tasks := [], cleanup := [], dispatched := [0, 1, 2], skipped := [],
      forgotten := [0, 1, 2], stopped := false, samples := 6, time := 7 }
    (fun t n hh => hh) (fun n => rfl) rfl
  refine ⟨_, rfl, h.1, h.2.1, rfl, rfl, ?_, ?_, ?_⟩
  · exact h.2.2.2 rfl rfl 0 (by decide)
  · exact h.2.2.2 rfl rfl 1 (by decide)
  · exact h.2.2.2 rfl rfl 2 (by decide)

/-- Counterexample to C3: in the chain 0 → 1 → 2 where node 0's result
carries an empty limit list, node 1 is skipped, and node 2's only
predecessor is then a skipped node with propagate_skip set; node 2 does
become Skipped, but a submit call is still made for it (it ends up in the
dispatch log), contradicting that no dispatch is ever made for it. -/
theorem C3_counterexample :
    runDag dagChain3 attrsN (some cfg0) envLim0 10 =
      Except.ok { tasks := [], cleanup := [], dispatched := [0, 1, 2], skipped := [1, 2],
                  forgotten := [0, 1, 2], stopped := false, samples := 6, time := 7 } ∧
    2 ∈ ([0, 1, 2] : List Nat) ∧ 2 ∈ ([1, 2] : List Nat) :=
  ⟨rfl, by decide, by decide⟩

end Lightflow
